import Mathlib

/-!
# Verification of the periodictable package entry point and its formula subsystem

This development embeds the `periodictable` package: the import-time
initialization and delayed-loading registrations of property groups
(transcribed from `periodictable/__init__.py`, lines 94-152), and the
chemical-formula subsystem (`formula`, `neutron_sld`, `xray_sld`) that the
entry point re-exports.  The formula grammar, the `Formula` model with its
arithmetic and flattening, the mass evaluation and the scattering-length
density entry points are modelled from the spec, since `formulas.py`,
`core.py`, `nsf.py`, `xsf.py` and the data modules are not part of the
source excerpt; the docstrings of `__init__.py` (grammar examples, hydrate
notation such as `CaCO3+6H2O`) anchor the grammar.

Counts in formulas are non-negative decimal literals.  All count arithmetic
is carried out exactly on a mantissa/exponent representation (`Decimal`),
normalized by stripping trailing zeros, so that equality of flattened
compositions is decidable and agrees with equality of the rational values;
`Decimal.val` maps a decimal to its rational value.
-/

/-- A non-negative decimal number `mant / 10 ^ exp`, the count type of the
formula grammar (counts can be integer or decimal, e.g. `CaCO3+(3HO0.5)2`). -/
structure Decimal where
  mant : ℕ
  exp : ℕ
deriving DecidableEq, Repr

/-- Strip trailing zeros: divide the mantissa by 10 while it is divisible
and the exponent is positive.  Fuel-indexed so it reduces definitionally. -/
def canonizeAux : ℕ → ℕ → ℕ → ℕ × ℕ
  | 0, m, e => (m, e)
  | fuel + 1, m, e =>
    match e with
    | 0 => (m, 0)
    | e' + 1 => if m % 10 = 0 then canonizeAux fuel (m / 10) e' else (m, e' + 1)

/-- Canonical form of a decimal: same value, trailing zeros stripped. -/
def Decimal.canon (d : Decimal) : Decimal :=
  let p := canonizeAux d.exp d.mant d.exp
  ⟨p.1, p.2⟩

/-- Exact sum of two decimals, in canonical form. -/
def Decimal.add (a b : Decimal) : Decimal :=
  Decimal.canon ⟨a.mant * 10 ^ b.exp + b.mant * 10 ^ a.exp, a.exp + b.exp⟩

/-- Exact product of two decimals, in canonical form. -/
def Decimal.mul (a b : Decimal) : Decimal :=
  Decimal.canon ⟨a.mant * b.mant, a.exp + b.exp⟩

/-- The rational value of a decimal. -/
def Decimal.val (d : Decimal) : ℚ := (d.mant : ℚ) / (10 : ℚ) ^ d.exp

/-- A decimal is canonical when it has no trailing zero to strip. -/
def Decimal.IsCanon (d : Decimal) : Prop := d.exp = 0 ∨ ¬ (10 ∣ d.mant)

def Decimal.zero : Decimal := ⟨0, 0⟩
def Decimal.one : Decimal := ⟨1, 0⟩

theorem canonizeAux_val (fuel m e : ℕ) :
    ((canonizeAux fuel m e).1 : ℚ) / (10 : ℚ) ^ (canonizeAux fuel m e).2
      = (m : ℚ) / (10 : ℚ) ^ e := by
  induction fuel generalizing m e with
  | zero => simp [canonizeAux]
  | succ fuel ih =>
    match e with
    | 0 => simp [canonizeAux]
    | e' + 1 =>
      simp only [canonizeAux]
      split
      · rename_i h10
        rw [ih]
        have hd : (10 : ℕ) ∣ m := Nat.dvd_of_mod_eq_zero h10
        obtain ⟨k, rfl⟩ := hd
        have hk : (10 * k) / 10 = k := by omega
        rw [hk]
        push_cast
        rw [pow_succ]
        have h10q : (10 : ℚ) ^ e' ≠ 0 := by positivity
        field_simp
        ring
      · rfl

theorem canonizeAux_isCanon (fuel m e : ℕ) (h : e ≤ fuel) :
    (canonizeAux fuel m e).2 = 0 ∨ ¬ (10 ∣ (canonizeAux fuel m e).1) := by
  induction fuel generalizing m e with
  | zero =>
    left
    have he : e = 0 := by omega
    simp [canonizeAux, he]
  | succ fuel ih =>
    match e with
    | 0 => left; simp [canonizeAux]
    | e' + 1 =>
      simp only [canonizeAux]
      split
      · exact ih _ _ (by omega)
      · right
        rename_i h10
        simpa [Nat.dvd_iff_mod_eq_zero] using h10

theorem Decimal.canon_val (d : Decimal) : d.canon.val = d.val := by
  unfold Decimal.canon Decimal.val
  exact canonizeAux_val d.exp d.mant d.exp

theorem Decimal.canon_isCanon (d : Decimal) : d.canon.IsCanon := by
  unfold Decimal.canon Decimal.IsCanon
  exact canonizeAux_isCanon d.exp d.mant d.exp le_rfl

theorem Decimal.canon_unique_aux (a b : Decimal) (hb : b.IsCanon)
    (hle : a.exp ≤ b.exp) (hnat : a.mant * 10 ^ b.exp = b.mant * 10 ^ a.exp) :
    a = b := by
  obtain ⟨k, hk⟩ := Nat.exists_eq_add_of_le hle
  have hcancel : a.mant * 10 ^ k = b.mant := by
    have h1 : (a.mant * 10 ^ k) * 10 ^ a.exp = b.mant * 10 ^ a.exp := by
      rw [← hnat, hk]
      ring
    exact Nat.eq_of_mul_eq_mul_right (Nat.pos_pow_of_pos _ (by norm_num)) h1
  rcases Nat.eq_zero_or_pos k with rfl | hkpos
  · have he : a.exp = b.exp := by omega
    have hm : a.mant = b.mant := by simpa using hcancel
    cases a; cases b; simp_all
  · exfalso
    have hdvd : (10 : ℕ) ∣ b.mant := by
      rw [← hcancel]
      exact Dvd.dvd.mul_left (dvd_pow_self 10 (by omega)) _
    rcases hb with hb0 | hbnd
    · omega
    · exact hbnd hdvd

theorem Decimal.canon_unique (a b : Decimal) (ha : a.IsCanon) (hb : b.IsCanon)
    (h : a.val = b.val) : a = b := by
  unfold Decimal.val at h
  rw [div_eq_div_iff (by positivity) (by positivity)] at h
  have hnat : a.mant * 10 ^ b.exp = b.mant * 10 ^ a.exp := by exact_mod_cast h
  rcases Nat.le_total a.exp b.exp with hle | hle
  · exact Decimal.canon_unique_aux a b hb hle hnat
  · exact (Decimal.canon_unique_aux b a ha hle hnat.symm).symm

theorem Decimal.val_add (a b : Decimal) : (a.add b).val = a.val + b.val := by
  unfold Decimal.add
  rw [Decimal.canon_val]
  unfold Decimal.val
  push_cast
  rw [pow_add]
  field_simp

theorem Decimal.val_mul (a b : Decimal) : (a.mul b).val = a.val * b.val := by
  unfold Decimal.mul
  rw [Decimal.canon_val]
  unfold Decimal.val
  push_cast
  rw [pow_add]
  field_simp

theorem Decimal.add_isCanon (a b : Decimal) : (a.add b).IsCanon :=
  Decimal.canon_isCanon _

theorem Decimal.mul_isCanon (a b : Decimal) : (a.mul b).IsCanon :=
  Decimal.canon_isCanon _

theorem Decimal.add_assoc_canon (a b c : Decimal) :
    (a.add b).add c = a.add (b.add c) := by
  apply Decimal.canon_unique _ _ (Decimal.add_isCanon _ _) (Decimal.add_isCanon _ _)
  rw [Decimal.val_add, Decimal.val_add, Decimal.val_add, Decimal.val_add]
  ring

theorem Decimal.val_zero : Decimal.zero.val = 0 := by
  unfold Decimal.zero Decimal.val
  norm_num

/-! ## Atom references and flattened compositions

An atom reference identifies a bare element (by atomic number) or a
specific isotope (element plus mass number).  A flattened composition is a
mapping from atom references to total counts, represented as an
association list kept sorted by an injective numeric key, so that mapping
equality is plain (decidable) list equality and is order-independent. -/

/-- Reference to a catalog entity: a bare element (`iso = none`) or a
specific isotope (`iso = some massNumber`). -/
structure AtomRef where
  elem : ℕ
  iso : Option ℕ
deriving DecidableEq, Repr

/-- Injective numeric key used to keep compositions sorted. -/
def keyN (a : AtomRef) : ℕ :=
  Nat.pair a.elem (match a.iso with | none => 0 | some n => n + 1)

theorem keyN_inj {a b : AtomRef} (h : keyN a = keyN b) : a = b := by
  unfold keyN at h
  rw [Nat.pair_eq_pair] at h
  obtain ⟨h1, h2⟩ := h
  cases a with
  | mk e i =>
    cases b with
    | mk e' i' =>
      simp only at h1 h2
      subst h1
      congr 1
      cases i <;> cases i' <;> simp_all

/-- A flattened composition: atom references with their total counts. -/
abbrev Map := List (AtomRef × Decimal)

/-- Insert a count for an atom into a sorted composition, adding to the
existing count when the atom is already present. -/
def insertA (a : AtomRef) (c : Decimal) : Map → Map
  | [] => [(a, c)]
  | y :: ys =>
    if keyN a < keyN y.1 then (a, c) :: y :: ys
    else if keyN y.1 < keyN a then y :: insertA a c ys
    else (a, c.add y.2) :: ys

/-- Key-wise sum of two compositions. -/
def merge : Map → Map → Map
  | [], m2 => m2
  | x :: xs, m2 => insertA x.1 x.2 (merge xs m2)

/-- Multiply every count of a composition by `k`. -/
def scaleMap (k : Decimal) (m : Map) : Map := m.map (fun p => (p.1, k.mul p.2))

/-- The count a composition assigns to an atom (zero when absent). -/
def lookupMap : Map → AtomRef → Decimal
  | [], _ => Decimal.zero
  | p :: m, a => if p.1 = a then p.2 else lookupMap m a

/-- Sortedness (strictly increasing keys) of a composition. -/
def SMap (m : Map) : Prop := List.Pairwise (fun p q => keyN p.1 < keyN q.1) m

theorem insertA_combine (a : AtomRef) (c d : Decimal) (m : Map) :
    insertA a c (insertA a d m) = insertA a (c.add d) m := by
  induction m with
  | nil => simp [insertA]
  | cons y ys ih =>
    by_cases h1 : keyN a < keyN y.1
    · simp [insertA, h1, lt_irrefl]
    · by_cases h2 : keyN y.1 < keyN a
      · simp only [insertA, if_neg h1, if_pos h2]
        simp only [insertA, if_neg h1, if_pos h2, ih]
      · simp only [insertA, if_neg h1, if_neg h2]
        simp [insertA, lt_irrefl, Decimal.add_assoc_canon]


theorem insertA_comm_lt (a b : AtomRef) (c d : Decimal) (hab : keyN a < keyN b) :
    ∀ m : Map, insertA a c (insertA b d m) = insertA b d (insertA a c m)
  | [] => by
    simp only [insertA]
    split_ifs <;> first | rfl | omega
  | y :: ys => by
    simp only [insertA]
    split_ifs <;> simp only [insertA] <;> split_ifs <;>
      first
        | rfl
        | omega
        | exact congrArg _ (insertA_comm_lt a b c d hab ys)

theorem insertA_comm (a b : AtomRef) (c d : Decimal) (m : Map)
    (hab : keyN a ≠ keyN b) :
    insertA a c (insertA b d m) = insertA b d (insertA a c m) := by
  rcases Nat.lt_trichotomy (keyN a) (keyN b) with h | h | h
  · exact insertA_comm_lt a b c d h m
  · exact absurd h hab
  · exact (insertA_comm_lt b a d c h m).symm

theorem merge_insertA (a : AtomRef) (c : Decimal) (m m3 : Map) :
    merge (insertA a c m) m3 = insertA a c (merge m m3) := by
  induction m generalizing a c with
  | nil => rfl
  | cons y ys ih =>
    simp only [insertA]
    split_ifs with h1 h2
    · rfl
    · simp only [merge]
      rw [ih, insertA_comm a y.1 c y.2 _ (by omega)]
    · have hay : a = y.1 := keyN_inj (by omega)
      simp only [merge]
      subst hay
      rw [insertA_combine]

theorem merge_assoc (m1 m2 m3 : Map) :
    merge (merge m1 m2) m3 = merge m1 (merge m2 m3) := by
  induction m1 with
  | nil => rfl
  | cons x xs ih =>
    simp only [merge]
    rw [merge_insertA, ih]

theorem merge_nil_left (m : Map) : merge [] m = m := rfl

/-- Sorted insert in front when the key is below every key of the map. -/
theorem insertA_front (a : AtomRef) (c : Decimal) (m : Map)
    (h : ∀ p ∈ m, keyN a < keyN p.1) : insertA a c m = (a, c) :: m := by
  cases m with
  | nil => rfl
  | cons y ys =>
    simp only [insertA]
    rw [if_pos (h y (List.mem_cons_self y ys))]

theorem SMap_nil : SMap [] := List.Pairwise.nil

/-- Every key of `insertA a c m` is the inserted key or a key of `m`. -/
theorem insertA_keys (a : AtomRef) (c : Decimal) (m : Map) :
    ∀ p ∈ insertA a c m, keyN p.1 = keyN a ∨ ∃ q ∈ m, keyN p.1 = keyN q.1 := by
  induction m with
  | nil =>
    intro p hp
    simp only [insertA, List.mem_singleton] at hp
    subst hp
    exact Or.inl rfl
  | cons y ys ih =>
    intro p hp
    simp only [insertA] at hp
    split_ifs at hp with h1 h2
    · rcases List.mem_cons.mp hp with h | hp2
      · subst h
        exact Or.inl rfl
      · exact Or.inr ⟨p, hp2, rfl⟩
    · rcases List.mem_cons.mp hp with h | hp2
      · exact Or.inr ⟨y, List.mem_cons_self _ _, by rw [h]⟩
      · rcases ih p hp2 with h | ⟨q, hq, hk⟩
        · exact Or.inl h
        · exact Or.inr ⟨q, List.mem_cons_of_mem _ hq, hk⟩
    · rcases List.mem_cons.mp hp with h | hp2
      · subst h
        exact Or.inl rfl
      · exact Or.inr ⟨p, List.mem_cons_of_mem _ hp2, rfl⟩

theorem insertA_sorted (a : AtomRef) (c : Decimal) (m : Map) (h : SMap m) :
    SMap (insertA a c m) := by
  induction m with
  | nil => exact List.pairwise_singleton _ _
  | cons y ys ih =>
    rcases List.pairwise_cons.mp h with ⟨hy, hys⟩
    simp only [insertA]
    split_ifs with h1 h2
    · refine List.pairwise_cons.mpr ⟨?_, h⟩
      intro p hp
      rcases List.mem_cons.mp hp with hpe | hp2
      · subst hpe
        exact h1
      · exact Nat.lt_trans h1 (hy p hp2)
    · refine List.pairwise_cons.mpr ⟨?_, ih hys⟩
      intro p hp
      rcases insertA_keys a c ys p hp with hk | ⟨q, hq, hk⟩
      · omega
      · rw [hk]
        exact hy q hq
    · refine List.pairwise_cons.mpr ⟨?_, hys⟩
      intro p hp
      have hk : keyN y.1 = keyN a := by omega
      simp only
      rw [← hk]
      exact hy p hp

theorem merge_sorted (m1 m2 : Map) (h : SMap m2) : SMap (merge m1 m2) := by
  induction m1 with
  | nil => exact h
  | cons x xs ih => exact insertA_sorted _ _ _ ih

theorem merge_nil_right (m : Map) (h : SMap m) : merge m [] = m := by
  induction m with
  | nil => rfl
  | cons y ys ih =>
    rcases List.pairwise_cons.mp h with ⟨hy, hys⟩
    simp only [merge]
    rw [ih hys]
    exact insertA_front y.1 y.2 ys hy

theorem lookupMap_zero_of (m : Map) (x : AtomRef) (h : ∀ p ∈ m, p.1 ≠ x) :
    lookupMap m x = Decimal.zero := by
  induction m with
  | nil => rfl
  | cons y ys ih =>
    simp only [lookupMap]
    rw [if_neg (h y (List.mem_cons_self _ _))]
    exact ih (fun p hp => h p (List.mem_cons_of_mem _ hp))

theorem lookupMap_insertA (a x : AtomRef) (c : Decimal) (m : Map) (hs : SMap m) :
    (lookupMap (insertA a c m) x).val
      = (if a = x then c.val else 0) + (lookupMap m x).val := by
  induction m with
  | nil =>
    have hcons : lookupMap (insertA a c []) x
        = if a = x then c else lookupMap [] x := rfl
    rw [hcons]
    by_cases hax : a = x
    · rw [if_pos hax, if_pos hax]
      simp [lookupMap, Decimal.val_zero]
    · rw [if_neg hax, if_neg hax]
      simp [lookupMap, Decimal.val_zero]
  | cons y ys ih =>
    rcases List.pairwise_cons.mp hs with ⟨hy, hys⟩
    by_cases h1 : keyN a < keyN y.1
    · have hins : insertA a c (y :: ys) = (a, c) :: y :: ys := by
        simp [insertA, h1]
      have hcons : lookupMap ((a, c) :: y :: ys) x
          = if a = x then c else lookupMap (y :: ys) x := rfl
      rw [hins, hcons]
      by_cases hax : a = x
      · subst hax
        have hz : lookupMap (y :: ys) a = Decimal.zero := by
          apply lookupMap_zero_of
          intro p hp hpa
          rcases List.mem_cons.mp hp with hpy | hp2
          · rw [hpy] at hpa
            rw [hpa] at h1
            omega
          · have hk := hy p hp2
            rw [hpa] at hk
            omega
        rw [if_pos rfl, if_pos rfl, hz, Decimal.val_zero, add_zero]
      · rw [if_neg hax, if_neg hax, zero_add]
    · by_cases h2 : keyN y.1 < keyN a
      · have hins : insertA a c (y :: ys) = y :: insertA a c ys := by
          simp [insertA, h1, h2]
        have hcons1 : lookupMap (y :: insertA a c ys) x
            = if y.1 = x then y.2 else lookupMap (insertA a c ys) x := rfl
        have hcons2 : lookupMap (y :: ys) x
            = if y.1 = x then y.2 else lookupMap ys x := rfl
        rw [hins, hcons1, hcons2]
        by_cases hyx : y.1 = x
        · have hax : ¬ a = x := by
            intro hax
            rw [← hax] at hyx
            rw [hyx] at h2
            omega
          rw [if_pos hyx, if_pos hyx, if_neg hax, zero_add]
        · rw [if_neg hyx, if_neg hyx, ih hys]
      · have hay : a = y.1 := keyN_inj (by omega)
        have hins : insertA a c (y :: ys) = (a, c.add y.2) :: ys := by
          simp [insertA, h1, h2]
        have hcons1 : lookupMap ((a, c.add y.2) :: ys) x
            = if a = x then c.add y.2 else lookupMap ys x := rfl
        have hcons2 : lookupMap (y :: ys) x
            = if y.1 = x then y.2 else lookupMap ys x := rfl
        rw [hins, hcons1, hcons2]
        by_cases hax : a = x
        · have hyx : y.1 = x := by rw [← hay]; exact hax
          rw [if_pos hax, if_pos hax, if_pos hyx, Decimal.val_add]
        · have hyx : ¬ y.1 = x := by rw [← hay]; exact hax
          rw [if_neg hax, if_neg hax, if_neg hyx, zero_add]

theorem lookupMap_merge (m1 m2 : Map) (x : AtomRef)
    (h1 : SMap m1) (h2 : SMap m2) :
    (lookupMap (merge m1 m2) x).val
      = (lookupMap m1 x).val + (lookupMap m2 x).val := by
  induction m1 with
  | nil => simp [merge, lookupMap, Decimal.val_zero]
  | cons y ys ih =>
    rcases List.pairwise_cons.mp h1 with ⟨hy, hys⟩
    simp only [merge]
    rw [lookupMap_insertA _ _ _ _ (merge_sorted ys m2 h2), ih hys]
    have hcons : lookupMap (y :: ys) x
        = if y.1 = x then y.2 else lookupMap ys x := rfl
    rw [hcons]
    by_cases hyx : y.1 = x
    · have hz : lookupMap ys x = Decimal.zero := by
        apply lookupMap_zero_of
        intro p hp hpx
        have hk := hy p hp
        rw [hpx, ← hyx] at hk
        omega
      rw [if_pos hyx, if_pos hyx, hz, Decimal.val_zero]
      ring
    · rw [if_neg hyx, if_neg hyx]
      ring

/-! ## The Formula model

Modelled from the spec: `formulas.Formula` (the module `formulas.py` is not
part of the source excerpt).  A Formula is an ordered sequence of weighted
fragments; each fragment is a count together with either an atom reference
or a nested sub-formula, plus optional metadata (declared density and
name).  `Frags` is the fragment-sequence spine and `FNode` a fragment
target. -/

mutual
/-- A fragment target: an atom reference or a nested group. -/
inductive FNode where
  | atom (a : AtomRef)
  | group (fs : Frags)
deriving DecidableEq, Repr

/-- A sequence of fragments `(count, target)`. -/
inductive Frags where
  | fnil
  | fcons (count : Decimal) (n : FNode) (rest : Frags)
deriving DecidableEq, Repr
end

/-- Concatenation of fragment sequences. -/
def Frags.append : Frags → Frags → Frags
  | .fnil, t => t
  | .fcons c n r, t => .fcons c n (r.append t)

/-- Modelled from the spec: a Formula is an ordered sequence of fragments
plus optional declared density and name. -/
structure Formula where
  struct : Frags
  density : Option ℚ := none
  name : Option String := none
deriving DecidableEq, Repr

mutual
/-- Flattened composition of a single fragment target (count 1). -/
def flattenNode : FNode → Map
  | .atom a => [(a, Decimal.one)]
  | .group fs => flattenFrags fs

/-- Modelled from the spec: post-order flattening of a fragment sequence
into a total atom-count mapping; a nested fragment contributes its
sub-formula's flattening with every count multiplied by the fragment
count. -/
def flattenFrags : Frags → Map
  | .fnil => []
  | .fcons c n rest => merge (scaleMap c (flattenNode n)) (flattenFrags rest)
end

/-- The flattened composition (`.atoms`) of a Formula. -/
def flattenFormula (F : Formula) : Map := flattenFrags F.struct

/-- The empty formula `formula()`. -/
def Formula.empty : Formula := ⟨.fnil, none, none⟩

/-- Modelled from the spec: `add(A, B)` concatenates the fragment
sequences; density and name are taken from whichever operand defines them,
the left operand taking precedence, and no error is raised on conflict. -/
def Formula.add (A B : Formula) : Formula :=
  ⟨A.struct.append B.struct,
    match A.density with
    | some d => some d
    | none => B.density,
    match A.name with
    | some n => some n
    | none => B.name⟩

/-- Modelled from the spec: `scale(k, A)` wraps `A` as a single fragment
with count `k` (the primary definition given by the spec). -/
def Formula.scale (k : Decimal) (A : Formula) : Formula :=
  ⟨.fcons k (.group A.struct) .fnil, A.density, A.name⟩

theorem flattenFrags_sorted : ∀ fs : Frags, SMap (flattenFrags fs)
  | .fnil => SMap_nil
  | .fcons _ _ rest => merge_sorted _ _ (flattenFrags_sorted rest)

theorem scaleMap_sorted (k : Decimal) (m : Map) (h : SMap m) :
    SMap (scaleMap k m) := by
  unfold SMap scaleMap
  rw [List.pairwise_map]
  exact h

theorem flattenFrags_append : ∀ fs1 fs2 : Frags,
    flattenFrags (Frags.append fs1 fs2)
      = merge (flattenFrags fs1) (flattenFrags fs2)
  | .fnil, fs2 => rfl
  | .fcons c n rest, fs2 => by
    simp only [Frags.append, flattenFrags]
    rw [flattenFrags_append rest fs2, merge_assoc]

/-- Flattening turns formula addition into the key-wise merge. -/
theorem flattenFormula_add (A B : Formula) :
    flattenFormula (A.add B) = merge (flattenFormula A) (flattenFormula B) :=
  flattenFrags_append A.struct B.struct

/-- Flattening turns scaling into count-wise multiplication. -/
theorem flattenFormula_scale (k : Decimal) (A : Formula) :
    flattenFormula (Formula.scale k A) = scaleMap k (flattenFormula A) := by
  unfold flattenFormula Formula.scale
  simp only [flattenFrags, flattenNode]
  exact merge_nil_right _ (scaleMap_sorted _ _ (flattenFrags_sorted A.struct))

theorem flattenFormula_sorted (F : Formula) : SMap (flattenFormula F) :=
  flattenFrags_sorted F.struct

/-! ## The element and isotope catalog

Modelled from the spec: the catalog (`core.elements` with the mass table
loaded) is an external collaborator; this development carries a
representative excerpt with real symbols, atomic numbers, isotope mass
numbers and masses.  Technetium (Tc) carries no standard atomic weight, so
its element mass is absent, matching the spec's "missing properties
evaluate to None". -/

/-- Element symbols and atomic numbers known to the catalog. -/
def symbolTable : List (String × ℕ) :=
  [("H", 1), ("C", 6), ("N", 7), ("O", 8), ("Si", 14), ("Ca", 20), ("Tc", 43)]

/-- Atomic number of a symbol, when the symbol is in the catalog. -/
def lookupSym (s : String) : Option ℕ :=
  (symbolTable.find? (fun p => p.1 = s)).map (fun p => p.2)

/-- Symbol of an atomic number, when it is in the catalog. -/
def symOf (z : ℕ) : Option String :=
  (symbolTable.find? (fun p => p.2 = z)).map (fun p => p.1)

/-- Valid (element, mass number) isotope pairs of the catalog. -/
def isotopeTable : List (ℕ × ℕ) :=
  [(1, 1), (1, 2), (1, 3), (6, 12), (6, 13), (7, 14), (7, 15),
   (8, 16), (8, 17), (8, 18), (14, 28), (14, 29), (14, 30),
   (20, 40), (20, 42), (20, 43), (20, 44), (20, 46), (20, 48),
   (43, 97), (43, 98), (43, 99)]

/-- Whether `massNumber` is a valid isotope of element `z`. -/
def isoOk (z massNumber : ℕ) : Bool := isotopeTable.contains (z, massNumber)

/-- Modelled from the spec: the lazily loaded mass property of catalog
entities, absent when the entity has no mass datum (Tc as an element has
no standard atomic weight). -/
def atomMass (a : AtomRef) : Option Decimal :=
  match a.elem, a.iso with
  | 1, none => some ⟨100794, 5⟩
  | 1, some 1 => some ⟨10078250319, 10⟩
  | 1, some 2 => some ⟨20141017780, 10⟩
  | 1, some 3 => some ⟨30160492, 7⟩
  | 6, none => some ⟨120107, 4⟩
  | 6, some 12 => some ⟨12, 0⟩
  | 6, some 13 => some ⟨130033548378, 10⟩
  | 7, none => some ⟨140067, 4⟩
  | 7, some 14 => some ⟨140030740052, 10⟩
  | 7, some 15 => some ⟨150001088984, 10⟩
  | 8, none => some ⟨159994, 4⟩
  | 8, some 16 => some ⟨159949146221, 10⟩
  | 8, some 17 => some ⟨169991315, 7⟩
  | 8, some 18 => some ⟨179991604, 7⟩
  | 14, none => some ⟨280855, 4⟩
  | 14, some 28 => some ⟨279769265327, 10⟩
  | 14, some 29 => some ⟨2897649472, 8⟩
  | 14, some 30 => some ⟨2997377022, 8⟩
  | 20, none => some ⟨40078, 3⟩
  | 20, some 40 => some ⟨399625912, 7⟩
  | 20, some 42 => some ⟨419586183, 7⟩
  | 20, some 43 => some ⟨429587668, 7⟩
  | 20, some 44 => some ⟨439554811, 7⟩
  | 20, some 46 => some ⟨459536928, 7⟩
  | 20, some 48 => some ⟨47952534, 6⟩
  | 43, some 97 => some ⟨96906365, 6⟩
  | 43, some 98 => some ⟨97907216, 6⟩
  | 43, some 99 => some ⟨989062546, 7⟩
  | _, _ => none

/-- Modelled from the spec: total mass of a flattened composition,
`sum(count * atom.mass)`, undefined when any atom lacks a mass datum. -/
def totalMassMap : Map → Option Decimal
  | [] => some Decimal.zero
  | p :: m =>
    match atomMass p.1, totalMassMap m with
    | some ma, some s => some ((p.2.mul ma).add s)
    | _, _ => none

/-- The mass-weighted sum of a composition, reading absent masses as zero
(used only to state what `totalMassMap` returns when all masses exist). -/
def weightedMassSum : Map → Decimal
  | [] => Decimal.zero
  | p :: m => (p.2.mul ((atomMass p.1).getD Decimal.zero)).add (weightedMassSum m)

/-- The `.mass` property of a Formula. -/
def Formula.mass (F : Formula) : Option Decimal := totalMassMap (flattenFormula F)

/-! ## The formula grammar parser

Modelled from the spec and the `__init__.py` docstrings: formula strings
consist of counts and atoms (`CaCO3+6H2O`); groups are separated by `+` or
space; parenthesized groups nest and take a trailing count; isotopes are
written by index (`CaCO[18]3`); counts are integer or decimal; a count in
front of a group scales the whole group (hydrate notation `6H2O`).  The
parser is fuel-indexed recursive descent over the character list; the
top-level entry supplies ample fuel. -/

inductive PErr where
  | unknownSymbol (sym : String)
  | invalidIsotope
  | unbalancedParen
  | badCount
  | trailingChars (rest : String)
deriving DecidableEq, Repr

instance {e a : Type _} [DecidableEq e] [DecidableEq a] : DecidableEq (Except e a) := fun x y =>
  match x, y with
  | .ok v, .ok w =>
    if h : v = w then isTrue (by rw [h]) else isFalse (fun hc => h (Except.ok.inj hc))
  | .error v, .error w =>
    if h : v = w then isTrue (by rw [h]) else isFalse (fun hc => h (Except.error.inj hc))
  | .ok _, .error _ => isFalse (fun hc => Except.noConfusion hc)
  | .error _, .ok _ => isFalse (fun hc => Except.noConfusion hc)

def isUpC (c : Char) : Bool := 65 ≤ c.toNat && c.toNat ≤ 90
def isLoC (c : Char) : Bool := 97 ≤ c.toNat && c.toNat ≤ 122
def isDigC (c : Char) : Bool := 48 ≤ c.toNat && c.toNat ≤ 57
def isSepC (c : Char) : Bool := c.toNat = 43 || c.toNat = 32

/-- Longest prefix satisfying `p`, with the remainder. -/
def spanP (p : Char → Bool) : List Char → List Char × List Char
  | [] => ([], [])
  | c :: cs =>
    if p c then
      let r := spanP p cs
      (c :: r.1, r.2)
    else ([], c :: cs)

/-- Drop leading separators (`+` and space). -/
def dropSeps : List Char → List Char
  | [] => []
  | c :: cs => if isSepC c then dropSeps cs else c :: cs

def digChar : ℕ → Char
  | 0 => '0'
  | 1 => '1'
  | 2 => '2'
  | 3 => '3'
  | 4 => '4'
  | 5 => '5'
  | 6 => '6'
  | 7 => '7'
  | 8 => '8'
  | _ => '9'

def digVal (c : Char) : ℕ := c.toNat - 48

/-- Accumulate the value of a decimal digit string. -/
def natFromDigits (acc : ℕ) : List Char → ℕ
  | [] => acc
  | c :: cs => natFromDigits (acc * 10 + digVal c) cs

/-- Big-endian digits of `n` (fuel-indexed; `fuel ≥ n` suffices). -/
def natDigsAux : ℕ → ℕ → List ℕ
  | 0, n => [n]
  | fuel + 1, n => if n < 10 then [n] else natDigsAux fuel (n / 10) ++ [n % 10]

/-- Parse a count literal: digits with an optional fractional part. -/
def parseDec (cs : List Char) : Except PErr (Decimal × List Char) :=
  let r1 := spanP isDigC cs
  match r1.2 with
  | c :: r2 =>
    if c = '.' then
      let rf := spanP isDigC r2
      if rf.1 = [] then .error .badCount
      else .ok (⟨natFromDigits 0 (r1.1 ++ rf.1), rf.1.length⟩, rf.2)
    else .ok (⟨natFromDigits 0 r1.1, 0⟩, r1.2)
  | [] => .ok (⟨natFromDigits 0 r1.1, 0⟩, r1.2)

/-- Parse an optional count (default 1). -/
def parseCountOpt (cs : List Char) : Except PErr (Decimal × List Char) :=
  match cs with
  | c :: _ => if isDigC c then parseDec cs else .ok (Decimal.one, cs)
  | [] => .ok (Decimal.one, cs)

/-- Parse an element symbol (an uppercase letter followed by lowercase
letters) and look it up in the catalog. -/
def parseSym (cs : List Char) : Except PErr (ℕ × List Char) :=
  match cs with
  | c :: cs' =>
    if isUpC c then
      let r := spanP isLoC cs'
      let s := String.mk (c :: r.1)
      match lookupSym s with
      | some z => .ok (z, r.2)
      | none => .error (.unknownSymbol s)
    else .error (.unknownSymbol (String.mk [c]))
  | [] => .error (.unknownSymbol "")

/-- Parse an optional isotope index `[n]`, validating it against the
catalog's isotopes of element `z`. -/
def parseIso (z : ℕ) (cs : List Char) : Except PErr (Option ℕ × List Char) :=
  match cs with
  | c :: r =>
    if c = '[' then
      let rd := spanP isDigC r
      if rd.1 = [] then .error .invalidIsotope
      else
        match rd.2 with
        | c2 :: r2 =>
          if c2 = ']' then
            let n := natFromDigits 0 rd.1
            if isoOk z n then .ok (some n, r2) else .error .invalidIsotope
          else .error .invalidIsotope
        | [] => .error .invalidIsotope
    else .ok (none, cs)
  | [] => .ok (none, cs)

mutual
/-- Parse one unit — an atom with optional isotope and trailing count, or
a parenthesized formula with trailing count — or report that no unit
starts here (`none`). -/
def parseUnit : ℕ → List Char → Except PErr (Option (Decimal × FNode) × List Char)
  | fuel, cs =>
    match cs with
    | [] => .ok (none, [])
    | c :: cs' =>
      if isUpC c then
        (parseSym cs).bind (fun zr =>
          (parseIso zr.1 zr.2).bind (fun ir =>
            (parseCountOpt ir.2).map (fun cr =>
              (some (cr.1, FNode.atom ⟨zr.1, ir.1⟩), cr.2))))
      else if c = '(' then
        match fuel with
        | 0 => .ok (none, cs)
        | fuel' + 1 =>
          (parseGroups fuel' cs').bind (fun fr =>
            match fr.2 with
            | c2 :: r2 =>
              if c2 = ')' then
                (parseCountOpt r2).map (fun cr =>
                  (some (cr.1, FNode.group fr.1), cr.2))
              else .error .unbalancedParen
            | [] => .error .unbalancedParen)
      else .ok (none, cs)

/-- Parse a maximal sequence of units. -/
def parseUnits : ℕ → List Char → Except PErr (Frags × List Char)
  | 0, cs => .ok (.fnil, cs)
  | fuel + 1, cs =>
    (parseUnit fuel cs).bind (fun ur =>
      match ur.1 with
      | none => .ok (.fnil, ur.2)
      | some cn =>
        (parseUnits fuel ur.2).map (fun fr => (.fcons cn.1 cn.2 fr.1, fr.2)))

/-- Parse a sequence of groups separated by `+` or space; a leading count
scales the whole group that follows it. -/
def parseGroups : ℕ → List Char → Except PErr (Frags × List Char)
  | 0, cs => .ok (.fnil, cs)
  | fuel + 1, cs =>
    match dropSeps cs with
    | [] => .ok (.fnil, [])
    | c :: cs1 =>
      if c = ')' then .ok (.fnil, c :: cs1)
      else if isDigC c then
        (parseDec (c :: cs1)).bind (fun kr =>
          (parseUnits fuel kr.2).bind (fun ur =>
            if ur.1 = .fnil then .error .badCount
            else
              (parseGroups fuel ur.2).map (fun gr =>
                (.fcons kr.1 (.group ur.1) gr.1, gr.2))))
      else if isUpC c || c = '(' then
        (parseUnits fuel (c :: cs1)).bind (fun ur =>
          (parseGroups fuel ur.2).map (fun gr => (Frags.append ur.1 gr.1, gr.2)))
      else .ok (.fnil, c :: cs1)
end

/-- Parse a whole formula string: all input must be consumed. -/
def formula_grammar (s : String) : Except PErr Frags :=
  let cs := s.toList
  match parseGroups (3 * cs.length + 4) cs with
  | .error e => .error e
  | .ok (fs, rest) =>
    match rest with
    | [] => .ok fs
    | _ => .error (.trailingChars (String.mk rest))

/-- The `formula(value, density, name)` constructor for string
initializers: parse the string and attach the metadata. -/
def formula (value : String) (density : Option ℚ) (name : Option String) :
    Except PErr Formula :=
  (formula_grammar value).map (fun fs => ⟨fs, density, name⟩)

/-! ## Canonical string rendering -/

/-- Decimal digit characters of `n`. -/
def renderNat (n : ℕ) : List Char := (natDigsAux n n).map digChar

/-- Left-pad a digit list with zeros to length at least `k`. -/
def padZeros (k : ℕ) (ds : List ℕ) : List ℕ := List.replicate (k - ds.length) 0 ++ ds

/-- Render a count: the mantissa digits with a decimal point inserted
`exp` places from the right (no point when `exp = 0`). -/
def renderDec (d : Decimal) : List Char :=
  let digs := (padZeros (d.exp + 1) (natDigsAux d.mant d.mant)).map digChar
  if d.exp = 0 then digs
  else digs.take (digs.length - d.exp) ++ '.' :: digs.drop (digs.length - d.exp)

/-- Symbol string of an atomic number (empty for unknown numbers). -/
def symString (z : ℕ) : String := (symOf z).getD ""

mutual
/-- Render a fragment target: symbol with optional isotope index, or a
parenthesized sub-formula. -/
def renderNode : FNode → List Char
  | .atom a =>
    (symString a.elem).toList ++
      (match a.iso with
       | none => []
       | some n => '[' :: (renderNat n ++ [']']))
  | .group fs => '(' :: (renderFrags fs ++ [')'])

/-- Render a fragment sequence: each target followed by its count. -/
def renderFrags : Frags → List Char
  | .fnil => []
  | .fcons c n rest => renderNode n ++ (renderDec c ++ renderFrags rest)
end

/-- The canonical string rendering of a Formula. -/
def renderFormula (F : Formula) : String := String.mk (renderFrags F.struct)

/-! ## Printer/parser inverse lemmas -/

theorem digChar_isDig : ∀ d : ℕ, isDigC (digChar d) = true
  | 0 => rfl
  | 1 => rfl
  | 2 => rfl
  | 3 => rfl
  | 4 => rfl
  | 5 => rfl
  | 6 => rfl
  | 7 => rfl
  | 8 => rfl
  | _ + 9 => rfl

theorem digVal_digChar (d : ℕ) (h : d < 10) : digVal (digChar d) = d := by
  interval_cases d <;> rfl

theorem isDigC_toNat {c : Char} (h : isDigC c = true) :
    48 ≤ c.toNat ∧ c.toNat ≤ 57 := by
  simp only [isDigC, Bool.and_eq_true, decide_eq_true_eq] at h
  exact h

theorem isUpC_toNat {c : Char} (h : isUpC c = true) :
    65 ≤ c.toNat ∧ c.toNat ≤ 90 := by
  simp only [isUpC, Bool.and_eq_true, decide_eq_true_eq] at h
  exact h

theorem isLoC_toNat {c : Char} (h : isLoC c = true) :
    97 ≤ c.toNat ∧ c.toNat ≤ 122 := by
  simp only [isLoC, Bool.and_eq_true, decide_eq_true_eq] at h
  exact h

theorem char_ne_of_toNat {c d : Char} (h : c.toNat ≠ d.toNat) : c ≠ d :=
  fun hc => h (congrArg Char.toNat hc)

theorem isDigC_ne_dot {c : Char} (h : isDigC c = true) : c ≠ '.' := by
  apply char_ne_of_toNat
  have := isDigC_toNat h
  intro hv
  rw [show ('.' : Char).toNat = 46 from rfl] at hv
  omega

theorem isDigC_ne_brk {c : Char} (h : isDigC c = true) : c ≠ '[' := by
  apply char_ne_of_toNat
  have := isDigC_toNat h
  intro hv
  rw [show ('[' : Char).toNat = 91 from rfl] at hv
  omega

theorem isDigC_not_lo {c : Char} (h : isDigC c = true) : isLoC c = false := by
  have := isDigC_toNat h
  simp only [isLoC, Bool.and_eq_true, Bool.and_eq_false_iff]
  left
  simp only [decide_eq_false_iff_not]
  omega

theorem isUpC_not_dig {c : Char} (h : isUpC c = true) : isDigC c = false := by
  have := isUpC_toNat h
  simp only [isDigC, Bool.and_eq_false_iff]
  right
  simp only [decide_eq_false_iff_not]
  omega

theorem isUpC_ne_dot {c : Char} (h : isUpC c = true) : c ≠ '.' := by
  apply char_ne_of_toNat
  have := isUpC_toNat h
  intro hv
  rw [show ('.' : Char).toNat = 46 from rfl] at hv
  omega

theorem isUpC_not_lo {c : Char} (h : isUpC c = true) : isLoC c = false := by
  have := isUpC_toNat h
  simp only [isLoC, Bool.and_eq_true, Bool.and_eq_false_iff]
  left
  simp only [decide_eq_false_iff_not]
  omega

theorem isUpC_not_sep {c : Char} (h : isUpC c = true) : isSepC c = false := by
  have := isUpC_toNat h
  simp only [isSepC, Bool.or_eq_false_iff]
  constructor <;> (simp only [decide_eq_false_iff_not]; omega)

theorem isUpC_ne_rparen {c : Char} (h : isUpC c = true) : c ≠ ')' := by
  apply char_ne_of_toNat
  have := isUpC_toNat h
  intro hv
  rw [show (')' : Char).toNat = 41 from rfl] at hv
  omega

theorem isUpC_ne_lparen {c : Char} (h : isUpC c = true) : c ≠ '(' := by
  apply char_ne_of_toNat
  have := isUpC_toNat h
  intro hv
  rw [show ('(' : Char).toNat = 40 from rfl] at hv
  omega

theorem natFromDigits_append (xs ys : List Char) (acc : ℕ) :
    natFromDigits acc (xs ++ ys) = natFromDigits (natFromDigits acc xs) ys := by
  induction xs generalizing acc with
  | nil => rfl
  | cons x xs ih =>
    have h1 : natFromDigits acc ((x :: xs) ++ ys)
        = natFromDigits (acc * 10 + digVal x) (xs ++ ys) := rfl
    have h2 : natFromDigits acc (x :: xs)
        = natFromDigits (acc * 10 + digVal x) xs := rfl
    rw [h1, h2, ih]

theorem natDigsAux_ne_nil : ∀ fuel n : ℕ, natDigsAux fuel n ≠ []
  | 0, n => by simp [natDigsAux]
  | fuel + 1, n => by
    simp only [natDigsAux]
    split
    · simp
    · simp

theorem natDigsAux_lt10 : ∀ fuel n : ℕ, n ≤ fuel → ∀ d ∈ natDigsAux fuel n, d < 10
  | 0, n, h => by
    intro d hd
    simp only [natDigsAux, List.mem_singleton] at hd
    omega
  | fuel + 1, n, h => by
    intro d hd
    simp only [natDigsAux] at hd
    split at hd
    · rename_i hn
      simp only [List.mem_singleton] at hd
      omega
    · rename_i hn
      rcases List.mem_append.mp hd with h1 | h2
      · exact natDigsAux_lt10 fuel (n / 10) (by omega) d h1
      · simp only [List.mem_singleton] at h2
        omega

theorem natFromDigits_digs : ∀ fuel n acc : ℕ, n ≤ fuel →
    natFromDigits acc ((natDigsAux fuel n).map digChar)
      = acc * 10 ^ (natDigsAux fuel n).length + n
  | 0, n, acc, h => by
    have hn : n = 0 := by omega
    subst hn
    have h1 : natFromDigits acc ((natDigsAux 0 0).map digChar)
        = acc * 10 + digVal (digChar 0) := rfl
    rw [h1]
    have h2 : digVal (digChar 0) = 0 := rfl
    rw [h2]
    simp [natDigsAux]
  | fuel + 1, n, acc, h => by
    simp only [natDigsAux]
    split
    · rename_i hn
      simp only [List.map_cons, List.map_nil, List.length_singleton]
      have h1 : natFromDigits acc [digChar n] = acc * 10 + digVal (digChar n) := rfl
      rw [h1, digVal_digChar n hn]
      ring
    · rename_i hn
      rw [List.map_append, natFromDigits_append]
      rw [natFromDigits_digs fuel (n / 10) acc (by omega)]
      simp only [List.map_cons, List.map_nil, List.length_append, List.length_singleton]
      have h1 : ∀ A : ℕ, natFromDigits A [digChar (n % 10)]
          = A * 10 + digVal (digChar (n % 10)) := fun A => rfl
      rw [h1, digVal_digChar (n % 10) (by omega)]
      rw [pow_succ]
      have hdm : 10 * (n / 10) + n % 10 = n := Nat.div_add_mod n 10
      ring_nf
      omega

theorem natFromDigits_zeros (j : ℕ) :
    natFromDigits 0 (List.replicate j '0') = 0 := by
  induction j with
  | zero => rfl
  | succ j ih =>
    rw [List.replicate_succ]
    have h1 : natFromDigits 0 ('0' :: List.replicate j '0')
        = natFromDigits (0 * 10 + digVal '0') (List.replicate j '0') := rfl
    have h2 : 0 * 10 + digVal '0' = 0 := rfl
    rw [h1, h2, ih]

theorem natFromDigits_pad (k : ℕ) (ds : List ℕ) :
    natFromDigits 0 ((padZeros k ds).map digChar)
      = natFromDigits 0 (ds.map digChar) := by
  unfold padZeros
  rw [List.map_append, natFromDigits_append]
  have hz : (List.replicate (k - ds.length) 0).map digChar
      = List.replicate (k - ds.length) '0' := by
    rw [List.map_replicate]
    rfl
  rw [hz, natFromDigits_zeros]

theorem padZeros_length (k : ℕ) (ds : List ℕ) :
    (padZeros k ds).length = max k ds.length := by
  unfold padZeros
  rw [List.length_append, List.length_replicate]
  omega

theorem padZeros_lt10 (k : ℕ) (ds : List ℕ) (h : ∀ d ∈ ds, d < 10) :
    ∀ d ∈ padZeros k ds, d < 10 := by
  intro d hd
  unfold padZeros at hd
  rcases List.mem_append.mp hd with h1 | h2
  · have := List.eq_of_mem_replicate h1
    omega
  · exact h d h2

theorem spanP_exact (p : Char → Bool) (xs ys : List Char)
    (hx : ∀ c ∈ xs, p c = true)
    (hy : ∀ c, ys.head? = some c → p c = false) :
    spanP p (xs ++ ys) = (xs, ys) := by
  induction xs with
  | nil =>
    cases ys with
    | nil => rfl
    | cons c r =>
      simp only [List.nil_append, spanP]
      rw [hy c rfl]
      simp
  | cons x xs ih =>
    simp only [List.cons_append, spanP]
    rw [hx x (List.mem_cons_self _ _)]
    simp only [if_true, List.append_eq]
    rw [ih (fun c hc => hx c (List.mem_cons_of_mem _ hc))]

/-- What may legally follow a rendered count: end of input or a character
that is neither a digit nor a decimal point. -/
def countStop : List Char → Prop
  | [] => True
  | c :: _ => isDigC c = false ∧ c ≠ '.'

theorem renderNat_all_dig (n : ℕ) : ∀ c ∈ renderNat n, isDigC c = true := by
  intro c hc
  unfold renderNat at hc
  rcases List.mem_map.mp hc with ⟨d, _, rfl⟩
  exact digChar_isDig d

theorem renderNat_value (n : ℕ) : natFromDigits 0 (renderNat n) = n := by
  unfold renderNat
  rw [natFromDigits_digs n n 0 le_rfl]
  ring

theorem renderDec_digsC_facts (d : Decimal) :
    ∀ c ∈ (padZeros (d.exp + 1) (natDigsAux d.mant d.mant)).map digChar,
      isDigC c = true := by
  intro c hc
  rcases List.mem_map.mp hc with ⟨x, _, rfl⟩
  exact digChar_isDig x

theorem renderDec_digsC_value (d : Decimal) :
    natFromDigits 0 ((padZeros (d.exp + 1) (natDigsAux d.mant d.mant)).map digChar)
      = d.mant := by
  rw [natFromDigits_pad]
  rw [natFromDigits_digs d.mant d.mant 0 le_rfl]
  ring

theorem renderDec_digsC_length (d : Decimal) :
    d.exp + 1 ≤ ((padZeros (d.exp + 1) (natDigsAux d.mant d.mant)).map digChar).length := by
  rw [List.length_map, padZeros_length]
  omega

theorem parseDec_render (d : Decimal) (rest : List Char) (hrest : countStop rest) :
    parseDec (renderDec d ++ rest) = .ok (d, rest) := by
  have hrest2 : ∀ c, rest.head? = some c → isDigC c = false := by
    intro c hc
    cases rest with
    | nil => simp at hc
    | cons r rs =>
      simp only [List.head?_cons, Option.some.injEq] at hc
      subst hc
      exact hrest.1
  have hrestDot : ∀ c r2, rest = c :: r2 → ¬ c = '.' := by
    intro c r2 hr
    subst hr
    exact hrest.2
  set digsC := (padZeros (d.exp + 1) (natDigsAux d.mant d.mant)).map digChar with hdigs
  have hall : ∀ c ∈ digsC, isDigC c = true := renderDec_digsC_facts d
  have hval : natFromDigits 0 digsC = d.mant := renderDec_digsC_value d
  have hlen : d.exp + 1 ≤ digsC.length := renderDec_digsC_length d
  by_cases hexp : d.exp = 0
  · have hrd : renderDec d = digsC := by
      unfold renderDec
      rw [if_pos hexp]
    rw [hrd]
    unfold parseDec
    rw [spanP_exact isDigC digsC rest hall hrest2]
    cases rest with
    | nil =>
      simp only []
      congr 1
      rw [hval]
      cases d with
      | mk m e =>
        simp only at hexp
        subst hexp
        rfl
    | cons c r2 =>
      have hcdot : ¬ c = '.' := hrestDot c r2 rfl
      simp only [if_neg hcdot]
      congr 1
      rw [hval]
      cases d with
      | mk m e =>
        simp only at hexp
        subst hexp
        rfl
  · have hexp1 : 1 ≤ d.exp := by omega
    have hrd : renderDec d
        = digsC.take (digsC.length - d.exp) ++ '.' :: digsC.drop (digsC.length - d.exp) := by
      unfold renderDec
      rw [if_neg hexp]
    have htd : digsC.take (digsC.length - d.exp) ++ digsC.drop (digsC.length - d.exp)
        = digsC := List.take_append_drop _ _
    have hdroplen : (digsC.drop (digsC.length - d.exp)).length = d.exp := by
      rw [List.length_drop]
      omega
    have hdropne : digsC.drop (digsC.length - d.exp) ≠ [] := by
      intro hnil
      rw [hnil] at hdroplen
      simp at hdroplen
      omega
    have htake_dig : ∀ c ∈ digsC.take (digsC.length - d.exp), isDigC c = true :=
      fun c hc => hall c (List.mem_of_mem_take hc)
    have hdrop_dig : ∀ c ∈ digsC.drop (digsC.length - d.exp), isDigC c = true :=
      fun c hc => hall c (List.mem_of_mem_drop hc)
    rw [hrd]
    unfold parseDec
    have hassoc : (digsC.take (digsC.length - d.exp) ++ '.' :: digsC.drop (digsC.length - d.exp)) ++ rest
        = digsC.take (digsC.length - d.exp) ++ '.' :: (digsC.drop (digsC.length - d.exp) ++ rest) := by
      simp [List.append_assoc]
    rw [hassoc]
    rw [spanP_exact isDigC (digsC.take (digsC.length - d.exp))
      ('.' :: (digsC.drop (digsC.length - d.exp) ++ rest)) htake_dig
      (by
        intro c hc
        simp only [List.head?_cons, Option.some.injEq] at hc
        subst hc
        rfl)]
    simp only [if_pos rfl]
    rw [spanP_exact isDigC (digsC.drop (digsC.length - d.exp)) rest hdrop_dig hrest2]
    rw [if_neg hdropne]
    rw [htd, hval, hdroplen]
    cases d with
    | mk m e => rfl

theorem renderDec_head (d : Decimal) :
    ∃ ch t, renderDec d = ch :: t ∧ isDigC ch = true := by
  set dsC := (padZeros (d.exp + 1) (natDigsAux d.mant d.mant)).map digChar with hds
  have hall : ∀ c ∈ dsC, isDigC c = true := renderDec_digsC_facts d
  have hlen : d.exp + 1 ≤ dsC.length := renderDec_digsC_length d
  obtain ⟨c0, t0, hct⟩ : ∃ c0 t0, dsC = c0 :: t0 := by
    cases hc : dsC with
    | nil => rw [hc] at hlen; simp at hlen
    | cons a b => exact ⟨a, b, rfl⟩
  have hc0 : isDigC c0 = true := hall c0 (by rw [hct]; exact List.mem_cons_self _ _)
  by_cases hexp : d.exp = 0
  · refine ⟨c0, t0, ?_, hc0⟩
    unfold renderDec
    rw [if_pos hexp, ← hds, hct]
  · obtain ⟨k, hk⟩ : ∃ k, dsC.length - d.exp = k + 1 := by
      have : 1 ≤ dsC.length - d.exp := by omega
      exact ⟨dsC.length - d.exp - 1, by omega⟩
    refine ⟨c0, List.take k t0 ++ '.' :: dsC.drop (dsC.length - d.exp), ?_, hc0⟩
    unfold renderDec
    rw [if_neg hexp, ← hds, hk, hct]
    rfl

theorem parseCountOpt_render (d : Decimal) (rest : List Char) (hrest : countStop rest) :
    parseCountOpt (renderDec d ++ rest) = .ok (d, rest) := by
  obtain ⟨ch, t, hct, hch⟩ := renderDec_head d
  rw [hct]
  simp only [List.cons_append, parseCountOpt]
  rw [hch]
  simp only [if_true]
  rw [← List.cons_append, ← hct]
  exact parseDec_render d rest hrest

/-- Shape of a well-formed symbol string: one uppercase letter followed by
lowercase letters. -/
def symShape (s : String) : Bool :=
  match s.toList with
  | [] => false
  | c :: lo => isUpC c && lo.all isLoC

theorem symbolTable_shape : ∀ p ∈ symbolTable, symShape p.1 = true := by decide

theorem String.mk_toList (s : String) : String.mk s.toList = s := rfl

theorem parseSym_render (z : ℕ) (s : String)
    (hz : symOf z = some s) (hlook : lookupSym s = some z)
    (rest : List Char) (hr : ∀ c, rest.head? = some c → isLoC c = false) :
    parseSym (s.toList ++ rest) = .ok (z, rest) := by
  have hmem : ∃ p ∈ symbolTable, p.1 = s := by
    unfold symOf at hz
    rcases Option.map_eq_some'.mp hz with ⟨p, hfind, hp1⟩
    exact ⟨p, List.mem_of_find?_eq_some hfind, hp1⟩
  obtain ⟨p, hpmem, hp1⟩ := hmem
  have hshape : symShape s = true := by
    rw [← hp1]
    exact symbolTable_shape p hpmem
  unfold symShape at hshape
  obtain ⟨c, lo, hct⟩ : ∃ c lo, s.toList = c :: lo := by
    cases hc : s.toList with
    | nil => rw [hc] at hshape; simp at hshape
    | cons a b => exact ⟨a, b, rfl⟩
  rw [hct] at hshape
  simp only [Bool.and_eq_true, List.all_eq_true] at hshape
  obtain ⟨hup, hlo⟩ := hshape
  rw [hct]
  simp only [List.cons_append, parseSym]
  rw [hup]
  simp only [if_true]
  rw [spanP_exact isLoC lo rest hlo hr]
  have hmk : String.mk (c :: lo) = s := by
    rw [← hct]
    exact String.mk_toList s
  rw [hmk, hlook]

theorem parseIso_none (z : ℕ) (cs : List Char)
    (h : ∀ c, cs.head? = some c → c ≠ '[') : parseIso z cs = .ok (none, cs) := by
  cases cs with
  | nil => rfl
  | cons c r =>
    simp only [parseIso]
    rw [if_neg (h c rfl)]

theorem renderNat_ne_nil (n : ℕ) : renderNat n ≠ [] := by
  unfold renderNat
  intro h
  exact natDigsAux_ne_nil n n (List.map_eq_nil_iff.mp h)

theorem parseIso_render (z n : ℕ) (hok : isoOk z n = true) (rest : List Char) :
    parseIso z ('[' :: (renderNat n ++ ']' :: rest)) = .ok (some n, rest) := by
  have hspan : spanP isDigC (renderNat n ++ ']' :: rest) = (renderNat n, ']' :: rest) :=
    spanP_exact _ _ _ (renderNat_all_dig n)
      (by
        intro c hc
        simp only [List.head?_cons, Option.some.injEq] at hc
        subst hc
        rfl)
  simp only [parseIso, hspan, if_true]
  rw [if_neg (renderNat_ne_nil n)]
  simp only [renderNat_value, hok, if_true]

/-! ## Well-formed formulas and the render/parse round trip -/

/-- An atom reference is well formed when its element has a catalog symbol
that resolves back to it, and its isotope (if any) is valid. -/
def wfAtom (a : AtomRef) : Bool :=
  (match symOf a.elem with
   | some s => decide (lookupSym s = some a.elem)
   | none => false)
  && (match a.iso with
      | none => true
      | some n => isoOk a.elem n)

mutual
/-- Well-formedness of a fragment target. -/
def wfNode : FNode → Bool
  | .atom a => wfAtom a
  | .group fs => wfFrags fs

/-- Well-formedness of a fragment sequence. -/
def wfFrags : Frags → Bool
  | .fnil => true
  | .fcons _ n rest => wfNode n && wfFrags rest
end

/-- Well-formedness of a Formula: every atom it mentions is in the catalog
with a valid isotope. -/
def wfFormula (F : Formula) : Bool := wfFrags F.struct

mutual
/-- Recursion-depth bound of a fragment target for the fuelled parser. -/
def nsize : FNode → ℕ
  | .atom _ => 1
  | .group fs => fsize fs + 3

/-- Recursion-depth bound of a fragment sequence for the fuelled parser. -/
def fsize : Frags → ℕ
  | .fnil => 1
  | .fcons _ n rest => nsize n + fsize rest + 1
end

/-- What may legally follow a rendered fragment sequence: end of input or
a closing parenthesis. -/
def stopAt : List Char → Prop
  | [] => True
  | c :: _ => c = ')'

theorem stopAt_countStop {rest : List Char} (h : stopAt rest) : countStop rest := by
  cases rest with
  | nil => trivial
  | cons c t =>
    have hc : c = ')' := h
    subst hc
    exact ⟨rfl, by decide⟩

theorem wfAtom_parts {a : AtomRef} (h : wfAtom a = true) :
    ∃ s, symOf a.elem = some s ∧ lookupSym s = some a.elem
      ∧ (∀ n, a.iso = some n → isoOk a.elem n = true) := by
  unfold wfAtom at h
  rw [Bool.and_eq_true] at h
  obtain ⟨h1, h2⟩ := h
  cases hsym : symOf a.elem with
  | none => rw [hsym] at h1; exact absurd h1 (by simp)
  | some s =>
    rw [hsym] at h1
    refine ⟨s, rfl, of_decide_eq_true h1, ?_⟩
    intro n hn
    rw [hn] at h2
    exact h2

theorem symOf_shape {z : ℕ} {s : String} (hz : symOf z = some s) :
    ∃ c lo, s.toList = c :: lo ∧ isUpC c = true ∧ ∀ x ∈ lo, isLoC x = true := by
  have hmem : ∃ p ∈ symbolTable, p.1 = s := by
    unfold symOf at hz
    rcases Option.map_eq_some'.mp hz with ⟨p, hfind, hp1⟩
    exact ⟨p, List.mem_of_find?_eq_some hfind, hp1⟩
  obtain ⟨p, hpmem, hp1⟩ := hmem
  have hshape : symShape s = true := by
    rw [← hp1]
    exact symbolTable_shape p hpmem
  unfold symShape at hshape
  cases hc : s.toList with
  | nil => rw [hc] at hshape; simp at hshape
  | cons c lo =>
    rw [hc] at hshape
    simp only [Bool.and_eq_true, List.all_eq_true] at hshape
    exact ⟨c, lo, rfl, hshape.1, hshape.2⟩

theorem renderNode_head {n : FNode} (h : wfNode n = true) :
    ∃ ch t, renderNode n = ch :: t ∧ (isUpC ch = true ∨ ch = '(') := by
  cases n with
  | atom a =>
    have ha : wfAtom a = true := h
    obtain ⟨s, hsym, _, _⟩ := wfAtom_parts ha
    obtain ⟨c, lo, hct, hup, _⟩ := symOf_shape hsym
    refine ⟨c, lo ++ (match a.iso with
      | none => []
      | some m => '[' :: (renderNat m ++ [']'])), ?_, Or.inl hup⟩
    simp only [renderNode, symString, hsym, Option.getD_some, hct, List.cons_append]
  | group fs =>
    exact ⟨'(', renderFrags fs ++ [')'], rfl, Or.inr rfl⟩

/-- The head of a rendered nonempty fragment sequence followed by a legal
stop is never a digit, a dot, a separator, or a closing parenthesis. -/
theorem follow_countStop {fs : Frags} (hwf : wfFrags fs = true)
    {rest : List Char} (hrest : stopAt rest) :
    countStop (renderFrags fs ++ rest) := by
  cases fs with
  | fnil =>
    simp only [renderFrags, List.nil_append]
    exact stopAt_countStop hrest
  | fcons c n fs' =>
    have hn : wfNode n = true := by
      unfold wfFrags at hwf
      rw [Bool.and_eq_true] at hwf
      exact hwf.1
    obtain ⟨ch, t, hct, hch⟩ := renderNode_head hn
    simp only [renderFrags, hct, List.cons_append, List.append_assoc]
    rcases hch with hup | hpar
    · exact ⟨isUpC_not_dig hup, isUpC_ne_dot hup⟩
    · subst hpar
      exact ⟨rfl, by decide⟩

theorem dropSeps_no {c : Char} (t : List Char) (h : isSepC c = false) :
    dropSeps (c :: t) = c :: t := by
  simp [dropSeps, h]

theorem parseUnit_stop (fuel : ℕ) (cs : List Char) (h : stopAt cs) :
    parseUnit fuel cs = .ok (none, cs) := by
  cases cs with
  | nil => rw [parseUnit.eq_def]
  | cons c t =>
    have hc : c = ')' := h
    subst hc
    rw [parseUnit.eq_def]
    have h1 : isUpC ')' = false := by decide
    have h2 : ¬ (')' = '(') := by decide
    simp [h1, h2]

theorem parseGroups_stop (fuel : ℕ) (cs : List Char) (hf : 1 ≤ fuel)
    (h : stopAt cs) : parseGroups fuel cs = .ok (.fnil, cs) := by
  obtain ⟨f, rfl⟩ : ∃ f, fuel = f + 1 := ⟨fuel - 1, by omega⟩
  cases cs with
  | nil => simp [parseGroups, dropSeps]
  | cons c t =>
    have hc : c = ')' := h
    subst hc
    simp only [parseGroups]
    rw [dropSeps_no t (by decide)]
    simp

theorem Frags.append_fnil : ∀ fs : Frags, fs.append .fnil = fs
  | .fnil => rfl
  | .fcons c n rest => by
    simp only [Frags.append]
    rw [Frags.append_fnil rest]

theorem okBind {ε α β : Type _} (x : α) (f : α → Except ε β) :
    (Except.ok x : Except ε α).bind f = f x := rfl

theorem okMap {ε α β : Type _} (f : α → β) (x : α) :
    Except.map f (.ok x : Except ε α) = .ok (f x) := rfl

theorem errMap {ε α β : Type _} (f : α → β) (e : ε) :
    Except.map f (.error e : Except ε α) = .error e := rfl

theorem renderDec_follow_lower (d : Decimal) (rest : List Char) :
    ∀ x, (renderDec d ++ rest).head? = some x → isLoC x = false := by
  obtain ⟨dch, dt, hdct, hdig⟩ := renderDec_head d
  intro x hx
  rw [hdct] at hx
  simp only [List.cons_append, List.head?_cons, Option.some.injEq] at hx
  subst hx
  exact isDigC_not_lo hdig

theorem renderDec_follow_brk (d : Decimal) (rest : List Char) :
    ∀ x, (renderDec d ++ rest).head? = some x → x ≠ '[' := by
  obtain ⟨dch, dt, hdct, hdig⟩ := renderDec_head d
  intro x hx
  rw [hdct] at hx
  simp only [List.cons_append, List.head?_cons, Option.some.injEq] at hx
  subst hx
  exact isDigC_ne_brk hdig

mutual
theorem rt_parseUnit : ∀ (n : FNode), wfNode n = true →
    ∀ (fuel : ℕ) (c : Decimal) (rest : List Char), nsize n ≤ fuel → countStop rest →
    parseUnit fuel (renderNode n ++ (renderDec c ++ rest)) = .ok (some (c, n), rest)
  | .atom a, h, fuel, c, rest, hfuel, hrest => by
    have ha : wfAtom a = true := h
    obtain ⟨s, hsym, hlook, hiso⟩ := wfAtom_parts ha
    obtain ⟨ch, lo, hct, hup, hloall⟩ := symOf_shape hsym
    cases a with
    | mk z iso =>
      simp only at hsym hlook hiso
      cases iso with
      | none =>
        have hin : renderNode (.atom ⟨z, none⟩) ++ (renderDec c ++ rest)
            = ch :: (lo ++ (renderDec c ++ rest)) := by
          simp only [renderNode, symString, hsym, Option.getD_some, hct]
          simp [List.append_assoc]
        rw [hin, parseUnit.eq_def]
        dsimp only
        rw [if_pos hup]
        have hps : parseSym (ch :: (lo ++ (renderDec c ++ rest)))
            = .ok (z, renderDec c ++ rest) := by
          have := parseSym_render z s hsym hlook (renderDec c ++ rest)
            (renderDec_follow_lower c rest)
          rw [hct] at this
          simpa [List.cons_append] using this
        rw [hps, okBind]
        have hpi : parseIso z (renderDec c ++ rest) = .ok (none, renderDec c ++ rest) :=
          parseIso_none z _ (renderDec_follow_brk c rest)
        simp only [hpi, okBind]
        have hpc : parseCountOpt (renderDec c ++ rest) = .ok (c, rest) :=
          parseCountOpt_render c rest hrest
        simp only [hpc, okMap]
      | some m =>
        have hisoOk : isoOk z m = true := hiso m rfl
        have hin : renderNode (.atom ⟨z, some m⟩) ++ (renderDec c ++ rest)
            = ch :: (lo ++ ('[' :: (renderNat m ++ (']' :: (renderDec c ++ rest))))) := by
          simp only [renderNode, symString, hsym, Option.getD_some, hct]
          simp [List.append_assoc]
        rw [hin, parseUnit.eq_def]
        dsimp only
        rw [if_pos hup]
        have hps : parseSym (ch :: (lo ++ ('[' :: (renderNat m ++ (']' :: (renderDec c ++ rest))))))
            = .ok (z, '[' :: (renderNat m ++ (']' :: (renderDec c ++ rest)))) := by
          have := parseSym_render z s hsym hlook
            ('[' :: (renderNat m ++ (']' :: (renderDec c ++ rest))))
            (by
              intro x hx
              simp only [List.head?_cons, Option.some.injEq] at hx
              subst hx
              decide)
          rw [hct] at this
          simpa [List.cons_append] using this
        rw [hps, okBind]
        have hpi : parseIso z ('[' :: (renderNat m ++ (']' :: (renderDec c ++ rest))))
            = .ok (some m, renderDec c ++ rest) := by
          have := parseIso_render z m hisoOk (renderDec c ++ rest)
          simpa using this
        simp only [hpi, okBind]
        have hpc : parseCountOpt (renderDec c ++ rest) = .ok (c, rest) :=
          parseCountOpt_render c rest hrest
        simp only [hpc, okMap]
  | .group fs, h, fuel, c, rest, hfuel, hrest => by
    have hwfs : wfFrags fs = true := h
    have hfs : fsize fs + 3 ≤ fuel := by
      have : nsize (.group fs) = fsize fs + 3 := rfl
      omega
    obtain ⟨f, rfl⟩ : ∃ f, fuel = f + 1 := ⟨fuel - 1, by omega⟩
    have hin : renderNode (.group fs) ++ (renderDec c ++ rest)
        = '(' :: (renderFrags fs ++ (')' :: (renderDec c ++ rest))) := by
      simp only [renderNode]
      simp [List.append_assoc]
    rw [hin, parseUnit.eq_def]
    dsimp only
    rw [if_neg (by decide : ¬ (isUpC '(' = true)), if_pos rfl]
    have hpg : parseGroups f (renderFrags fs ++ (')' :: (renderDec c ++ rest)))
        = .ok (fs, ')' :: (renderDec c ++ rest)) := by
      cases fs with
      | fnil =>
        simp only [renderFrags, List.nil_append]
        exact parseGroups_stop f _ (by omega) (by simp [stopAt])
      | fcons c' n' fs'' =>
        obtain ⟨g, rfl⟩ : ∃ g, f = g + 1 := ⟨f - 1, by omega⟩
        have hn' : wfNode n' = true := by
          unfold wfFrags at hwfs
          rw [Bool.and_eq_true] at hwfs
          exact hwfs.1
        obtain ⟨hc2, t2, hct2, hch2⟩ := renderNode_head hn'
        have hhead : renderFrags (.fcons c' n' fs'') ++ (')' :: (renderDec c ++ rest))
            = hc2 :: (t2 ++ (renderDec c' ++ renderFrags fs'') ++ (')' :: (renderDec c ++ rest))) := by
          simp only [renderFrags, hct2]
          simp [List.append_assoc]
        rw [hhead, parseGroups.eq_def]
        dsimp only
        have hnosep : isSepC hc2 = false := by
          rcases hch2 with hu | hp
          · exact isUpC_not_sep hu
          · subst hp; decide
        rw [dropSeps_no _ hnosep]
        dsimp only
        have hnrp : ¬ (hc2 = ')') := by
          rcases hch2 with hu | hp
          · exact isUpC_ne_rparen hu
          · subst hp; decide
        have hnd : isDigC hc2 = false := by
          rcases hch2 with hu | hp
          · exact isUpC_not_dig hu
          · subst hp; decide
        have hok : (isUpC hc2 || hc2 = '(') = true := by
          rcases hch2 with hu | hp
          · simp [hu]
          · simp [hp]
        rw [if_neg hnrp]
        rw [if_neg (by simp [hnd] : ¬ (isDigC hc2 = true))]
        rw [if_pos hok]
        have hup : parseUnits g (hc2 :: (t2 ++ (renderDec c' ++ renderFrags fs'') ++ (')' :: (renderDec c ++ rest))))
            = .ok (.fcons c' n' fs'', ')' :: (renderDec c ++ rest)) := by
          have := rt_parseUnits (.fcons c' n' fs'') hwfs g (')' :: (renderDec c ++ rest))
            (by
              have : fsize (Frags.fcons c' n' fs'') = nsize n' + fsize fs'' + 1 := rfl
              omega)
            (by simp [stopAt])
          rw [show renderFrags (.fcons c' n' fs'') ++ (')' :: (renderDec c ++ rest))
              = hc2 :: (t2 ++ (renderDec c' ++ renderFrags fs'') ++ (')' :: (renderDec c ++ rest)))
            from by
              simp only [renderFrags, hct2]
              simp [List.append_assoc]] at this
          exact this
        rw [hup, okBind]
        rw [parseGroups_stop g _ (by omega) (by simp [stopAt]), okMap, Frags.append_fnil]
    rw [hpg, okBind]
    dsimp only
    have hpc : parseCountOpt (renderDec c ++ rest) = .ok (c, rest) :=
      parseCountOpt_render c rest hrest
    simp only [hpc, okMap, if_true]

theorem rt_parseUnits : ∀ (fs : Frags), wfFrags fs = true →
    ∀ (fuel : ℕ) (rest : List Char), fsize fs ≤ fuel → stopAt rest →
    parseUnits fuel (renderFrags fs ++ rest) = .ok (fs, rest)
  | .fnil, h, fuel, rest, hfuel, hrest => by
    have hf1 : fsize Frags.fnil = 1 := rfl
    obtain ⟨f, rfl⟩ : ∃ f, fuel = f + 1 := ⟨fuel - 1, by omega⟩
    simp only [renderFrags, List.nil_append, parseUnits]
    rw [parseUnit_stop f rest hrest, okBind]
  | .fcons c n fs', h, fuel, rest, hfuel, hrest => by
    have hwf : wfNode n = true ∧ wfFrags fs' = true := by
      unfold wfFrags at h
      rw [Bool.and_eq_true] at h
      exact h
    have hsz : fsize (Frags.fcons c n fs') = nsize n + fsize fs' + 1 := rfl
    obtain ⟨f, rfl⟩ : ∃ f, fuel = f + 1 := ⟨fuel - 1, by omega⟩
    simp only [renderFrags, parseUnits]
    have hcs : countStop (renderFrags fs' ++ rest) := follow_countStop hwf.2 hrest
    have hpu : parseUnit f (renderNode n ++ (renderDec c ++ (renderFrags fs' ++ rest)))
        = .ok (some (c, n), renderFrags fs' ++ rest) :=
      rt_parseUnit n hwf.1 f c (renderFrags fs' ++ rest) (by omega) hcs
    rw [show renderNode n ++ (renderDec c ++ renderFrags fs') ++ rest
        = renderNode n ++ (renderDec c ++ (renderFrags fs' ++ rest))
      from by simp [List.append_assoc]]
    rw [hpu, okBind]
    have hrec : parseUnits f (renderFrags fs' ++ rest) = .ok (fs', rest) :=
      rt_parseUnits fs' hwf.2 f rest (by omega) hrest
    simp only [hrec, okMap]
end

theorem rt_parseGroups (fs : Frags) (hwfs : wfFrags fs = true)
    (fuel : ℕ) (rest : List Char) (hfuel : fsize fs + 1 ≤ fuel) (hrest : stopAt rest) :
    parseGroups fuel (renderFrags fs ++ rest) = .ok (fs, rest) := by
  cases fs with
  | fnil =>
    simp only [renderFrags, List.nil_append]
    exact parseGroups_stop fuel rest (by omega) hrest
  | fcons c' n' fs'' =>
    have hsz : fsize (Frags.fcons c' n' fs'') = nsize n' + fsize fs'' + 1 := rfl
    obtain ⟨g, rfl⟩ : ∃ g, fuel = g + 1 := ⟨fuel - 1, by omega⟩
    have hn' : wfNode n' = true := by
      unfold wfFrags at hwfs
      rw [Bool.and_eq_true] at hwfs
      exact hwfs.1
    obtain ⟨hc2, t2, hct2, hch2⟩ := renderNode_head hn'
    have hhead : renderFrags (.fcons c' n' fs'') ++ rest
        = hc2 :: (t2 ++ (renderDec c' ++ renderFrags fs'') ++ rest) := by
      simp only [renderFrags, hct2]
      simp [List.append_assoc]
    rw [hhead, parseGroups.eq_def]
    dsimp only
    have hnosep : isSepC hc2 = false := by
      rcases hch2 with hu | hp
      · exact isUpC_not_sep hu
      · subst hp; decide
    rw [dropSeps_no _ hnosep]
    dsimp only
    have hnrp : ¬ (hc2 = ')') := by
      rcases hch2 with hu | hp
      · exact isUpC_ne_rparen hu
      · subst hp; decide
    have hnd : isDigC hc2 = false := by
      rcases hch2 with hu | hp
      · exact isUpC_not_dig hu
      · subst hp; decide
    have hok : (isUpC hc2 || hc2 = '(') = true := by
      rcases hch2 with hu | hp
      · simp [hu]
      · simp [hp]
    rw [if_neg hnrp]
    rw [if_neg (by simp [hnd] : ¬ (isDigC hc2 = true))]
    rw [if_pos hok]
    have hup : parseUnits g (hc2 :: (t2 ++ (renderDec c' ++ renderFrags fs'') ++ rest))
        = .ok (.fcons c' n' fs'', rest) := by
      have := rt_parseUnits (.fcons c' n' fs'') hwfs g rest (by omega) hrest
      rw [show renderFrags (.fcons c' n' fs'') ++ rest
          = hc2 :: (t2 ++ (renderDec c' ++ renderFrags fs'') ++ rest)
        from by
          simp only [renderFrags, hct2]
          simp [List.append_assoc]] at this
      exact this
    rw [hup, okBind]
    rw [parseGroups_stop g _ (by omega) hrest, okMap, Frags.append_fnil]

theorem renderDec_length_pos (d : Decimal) : 1 ≤ (renderDec d).length := by
  obtain ⟨ch, t, hct, _⟩ := renderDec_head d
  rw [hct]
  simp

mutual
theorem nsize_le : ∀ n : FNode, wfNode n = true →
    nsize n ≤ 2 * (renderNode n).length
  | .atom a, h => by
    obtain ⟨ch, t, hct, _⟩ := renderNode_head h
    rw [hct]
    simp only [nsize, List.length_cons]
    omega
  | .group fs, h => by
    have hfs : wfFrags fs = true := h
    have := fsize_le fs hfs
    simp only [nsize, renderNode, List.length_cons, List.length_append,
      List.length_singleton]
    omega

theorem fsize_le : ∀ fs : Frags, wfFrags fs = true →
    fsize fs ≤ 2 * (renderFrags fs).length + 1
  | .fnil, _ => by simp [fsize, renderFrags]
  | .fcons c n rest, h => by
    have hh : wfNode n = true ∧ wfFrags rest = true := by
      unfold wfFrags at h
      rw [Bool.and_eq_true] at h
      exact h
    have h1 := nsize_le n hh.1
    have h2 := fsize_le rest hh.2
    have h3 := renderDec_length_pos c
    simp only [fsize, renderFrags, List.length_append]
    omega
end

/-- Parsing the canonical rendering of a well-formed Formula recovers its
fragment structure exactly. -/
theorem render_parse_roundtrip (F : Formula) (h : wfFormula F = true) :
    formula_grammar (renderFormula F) = .ok F.struct := by
  unfold formula_grammar renderFormula
  have htl : (String.mk (renderFrags F.struct)).toList = renderFrags F.struct := rfl
  rw [htl]
  have hb := fsize_le F.struct h
  have hrt := rt_parseGroups F.struct h (3 * (renderFrags F.struct).length + 4)
    [] (by omega) trivial
  rw [List.append_nil] at hrt
  dsimp only
  rw [hrt]

/-! ## The declarative grammar of formula strings

Modelled from the spec: the grammar of formula strings as a relation,
independent of the parser.  Each relation `… cs rest` means that a token or
phrase of the grammar spans a prefix of `cs`, leaving exactly `rest`
unread.  Tokens are maximal (a count literal is a maximal digit run, an
element symbol a maximal letter run), element symbols must be in the
catalog, and isotope indices must be valid for their element.  A whole
string is `Grammatical` when the group phrase spans all of it.  Parse
errors are then characterized exactly: `formula_grammar` fails if and only
if its input is not `Grammatical`. -/

/-- The remaining input does not start with a lowercase letter (maximality
of a symbol token). -/
def headNotLo (cs : List Char) : Prop := ∀ c, cs.head? = some c → isLoC c = false

/-- The remaining input does not start with a digit (maximality of a digit
run). -/
def headNotDig (cs : List Char) : Prop := ∀ c, cs.head? = some c → isDigC c = false

/-- The remaining input does not start with a decimal point. -/
def headNotDot (cs : List Char) : Prop := ∀ c, cs.head? = some c → c ≠ '.'

/-- The remaining input does not start with an isotope bracket. -/
def headNotBrk (cs : List Char) : Prop := ∀ c, cs.head? = some c → c ≠ '['

/-- The input starts with a digit. -/
def headDig (cs : List Char) : Prop := ∃ c t, cs = c :: t ∧ isDigC c = true

/-- A nonempty all-digit token. -/
def digitTok (ds : List Char) : Prop := ds ≠ [] ∧ ∀ c ∈ ds, isDigC c = true

/-- No unit (atom or parenthesized group) starts here. -/
def notUnitStart (cs : List Char) : Prop :=
  ∀ c, cs.head? = some c → isUpC c = false ∧ c ≠ '('

/-- A unit (atom or parenthesized group) starts here. -/
def unitStart (cs : List Char) : Prop :=
  ∃ c t, cs = c :: t ∧ (isUpC c = true ∨ c = '(')

/-- No group (leading count, atom or parenthesized group) starts here. -/
def notGroupStart (cs : List Char) : Prop :=
  ∀ c, cs.head? = some c → isUpC c = false ∧ c ≠ '(' ∧ isDigC c = false

/-- Modelled from the spec: a count literal token — a maximal digit run,
optionally followed by a decimal point and a maximal nonempty digit run. -/
inductive GCount : List Char → List Char → Prop where
  | int (ds rest : List Char) : digitTok ds → headNotDig rest → headNotDot rest →
      GCount (ds ++ rest) rest
  | dec (ds fs rest : List Char) : digitTok ds → digitTok fs → headNotDig rest →
      GCount (ds ++ '.' :: (fs ++ rest)) rest

/-- Modelled from the spec: an optional count; when absent, no digit
follows (so a present literal is maximal). -/
inductive GCountOpt : List Char → List Char → Prop where
  | noCount (cs : List Char) : headNotDig cs → GCountOpt cs cs
  | withCount (cs rest : List Char) : GCount cs rest → GCountOpt cs rest

/-- Modelled from the spec: a maximal element-symbol token that is in the
catalog, denoting atomic number `z`. -/
inductive GSym : List Char → List Char → ℕ → Prop where
  | mk (s : String) (z : ℕ) (rest : List Char) : lookupSym s = some z →
      headNotLo rest → GSym (s.toList ++ rest) rest z

/-- Modelled from the spec: an optional isotope index `[n]` that is a
valid isotope of element `z`. -/
inductive GIso : ℕ → List Char → List Char → Prop where
  | bare (z : ℕ) (cs : List Char) : headNotBrk cs → GIso z cs cs
  | isot (z : ℕ) (ds rest : List Char) : digitTok ds →
      isoOk z (natFromDigits 0 ds) = true →
      GIso z ('[' :: (ds ++ ']' :: rest)) rest

/-- The three mutually recursive phrase levels of the grammar. -/
inductive GKind where
  | unit
  | units
  | groups
  deriving DecidableEq

/-- Modelled from the spec: the phrase structure of formula strings.
`GRel .unit cs rest` spans one unit — an atom (catalog symbol, optional
valid isotope index, optional count) or a parenthesized group phrase with
an optional count.  `GRel .units cs rest` spans a maximal run of units.
`GRel .groups cs rest` spans a run of groups separated by `+` or space,
where a group is a run of units, optionally preceded by a count that
scales it; the run ends where no further group can start. -/
inductive GRel : GKind → List Char → List Char → Prop where
  | atom {cs r1 r2 rest : List Char} {z : ℕ} : GSym cs r1 z → GIso z r1 r2 →
      GCountOpt r2 rest → GRel .unit cs rest
  | grp {inner r2 rest : List Char} : GRel .groups inner (')' :: r2) →
      GCountOpt r2 rest → GRel .unit ('(' :: inner) rest
  | unil {cs : List Char} : notUnitStart cs → GRel .units cs cs
  | ucons {cs mid rest : List Char} : GRel .unit cs mid → GRel .units mid rest →
      GRel .units cs rest
  | gstop {cs : List Char} : notGroupStart (dropSeps cs) → GRel .groups cs (dropSeps cs)
  | glead {cs r1 mid r2 rest : List Char} : GCount (dropSeps cs) r1 →
      GRel .unit r1 mid → GRel .units mid r2 → GRel .groups r2 rest →
      GRel .groups cs rest
  | gplain {cs r1 rest : List Char} : unitStart (dropSeps cs) →
      GRel .units (dropSeps cs) r1 → GRel .groups r1 rest →
      GRel .groups cs rest

/-- Modelled from the spec: a string is grammatical when the group phrase
spans all of it. -/
def Grammatical (s : String) : Prop := GRel .groups s.toList []

/-! ## Basic facts about the grammar relations -/

theorem spanP_decomp (p : Char → Bool) : ∀ cs : List Char,
    cs = (spanP p cs).1 ++ (spanP p cs).2
    ∧ (∀ c ∈ (spanP p cs).1, p c = true)
    ∧ (∀ c, (spanP p cs).2.head? = some c → p c = false) := by
  intro cs
  induction cs with
  | nil => exact ⟨rfl, by simp [spanP], by simp [spanP]⟩
  | cons c t ih =>
    by_cases hp : p c
    · simp only [spanP, hp, if_true]
      refine ⟨?_, ?_, ih.2.2⟩
      · simpa using congrArg (c :: ·) ih.1
      · intro x hx
        rcases List.mem_cons.mp hx with h | h
        · rw [h]; exact hp
        · exact ih.2.1 x h
    · simp only [spanP, hp, if_false]
      refine ⟨rfl, by simp, ?_⟩
      intro x hx
      have hcx : c = x := Option.some.inj hx
      rw [← hcx]
      exact Bool.eq_false_iff.mpr hp

theorem dropSeps_length : ∀ cs : List Char, (dropSeps cs).length ≤ cs.length := by
  intro cs
  induction cs with
  | nil => exact Nat.le_refl _
  | cons c t ih =>
    simp only [dropSeps]
    by_cases h : isSepC c
    · rw [if_pos h]
      exact Nat.le_trans ih (Nat.le_succ _)
    · rw [if_neg h]

theorem bind_ok_inv {ε α β : Type _} {x : Except ε α} {f : α → Except ε β} {v : β}
    (h : x.bind f = .ok v) : ∃ w, x = .ok w ∧ f w = .ok v := by
  cases x with
  | error e => exact Except.noConfusion h
  | ok w => exact ⟨w, rfl, h⟩

theorem map_ok_inv {ε α β : Type _} {f : α → β} {x : Except ε α} {v : β}
    (h : Except.map f x = .ok v) : ∃ w, x = .ok w ∧ f w = v := by
  cases x with
  | error e => exact Except.noConfusion h
  | ok w => exact ⟨w, rfl, Except.ok.inj h⟩

theorem GCount_len {cs rest : List Char} (h : GCount cs rest) :
    rest.length < cs.length := by
  cases h with
  | int ds rest hds _ _ =>
    have : 0 < ds.length := List.length_pos.mpr hds.1
    simp only [List.length_append]
    omega
  | dec ds fs rest hds hfs _ =>
    have : 0 < ds.length := List.length_pos.mpr hds.1
    simp only [List.length_append, List.length_cons]
    omega

theorem GCount_headDig {cs rest : List Char} (h : GCount cs rest) : headDig cs := by
  cases h with
  | int ds rest hds _ _ =>
    obtain ⟨d, ds', hd⟩ : ∃ d ds', ds = d :: ds' := by
      cases hds' : ds with
      | nil => exact absurd hds' hds.1
      | cons a b => exact ⟨a, b, rfl⟩
    exact ⟨d, ds' ++ rest, by rw [hd]; rfl, hds.2 d (by rw [hd]; exact List.mem_cons_self _ _)⟩
  | dec ds fs rest hds _ _ =>
    obtain ⟨d, ds', hd⟩ : ∃ d ds', ds = d :: ds' := by
      cases hds' : ds with
      | nil => exact absurd hds' hds.1
      | cons a b => exact ⟨a, b, rfl⟩
    exact ⟨d, ds' ++ '.' :: (fs ++ rest), by rw [hd]; rfl,
      hds.2 d (by rw [hd]; exact List.mem_cons_self _ _)⟩

theorem GCountOpt_len {cs rest : List Char} (h : GCountOpt cs rest) :
    rest.length ≤ cs.length := by
  cases h with
  | noCount h => exact Nat.le_refl _
  | withCount h hc => exact Nat.le_of_lt (GCount_len hc)

theorem symShape_of_lookup {s : String} {z : ℕ} (h : lookupSym s = some z) :
    symShape s = true := by
  unfold lookupSym at h
  rcases Option.map_eq_some'.mp h with ⟨p, hfind, _⟩
  have hmem := List.mem_of_find?_eq_some hfind
  have hp1 : p.1 = s := by
    have := List.find?_some hfind
    simp only [decide_eq_true_eq] at this
    exact this
  rw [← hp1]
  exact symbolTable_shape p hmem

theorem symShape_cons {s : String} (h : symShape s = true) :
    ∃ c lo, s.toList = c :: lo ∧ isUpC c = true ∧ ∀ x ∈ lo, isLoC x = true := by
  unfold symShape at h
  obtain ⟨c, lo, hct⟩ : ∃ c lo, s.toList = c :: lo := by
    cases hc : s.toList with
    | nil => rw [hc] at h; simp at h
    | cons a b => exact ⟨a, b, rfl⟩
  rw [hct] at h
  simp only [Bool.and_eq_true, List.all_eq_true] at h
  exact ⟨c, lo, hct, h.1, fun x hx => h.2 x hx⟩

theorem GSym_len {cs rest : List Char} {z : ℕ} (h : GSym cs rest z) :
    rest.length < cs.length := by
  cases h with
  | mk s z rest hlk _ =>
    obtain ⟨c, lo, hct, _, _⟩ := symShape_cons (symShape_of_lookup hlk)
    rw [hct]
    simp only [List.length_append, List.length_cons]
    omega

theorem GIso_len {z : ℕ} {cs rest : List Char} (h : GIso z cs rest) :
    rest.length ≤ cs.length := by
  cases h with
  | bare h => exact Nat.le_refl _
  | isot h hok =>
    simp only [List.length_cons, List.length_append]
    omega

theorem GRel_len {k : GKind} {cs rest : List Char} (h : GRel k cs rest) :
    rest.length ≤ cs.length ∧ (k = .unit → rest.length < cs.length) := by
  induction h with
  | atom hsym hiso hcnt =>
    have h1 := GSym_len hsym
    have h2 := GIso_len hiso
    have h3 := GCountOpt_len hcnt
    exact ⟨by omega, fun _ => by omega⟩
  | grp hg hcnt ihg =>
    have h1 := ihg.1
    have h2 := GCountOpt_len hcnt
    simp only [List.length_cons] at h1 ⊢
    exact ⟨by omega, fun _ => by omega⟩
  | unil hn => exact ⟨Nat.le_refl _, fun hk => GKind.noConfusion hk⟩
  | ucons h1 h2 ih1 ih2 =>
    have ha := ih1.2 rfl
    have hb := ih2.1
    exact ⟨by omega, fun hk => GKind.noConfusion hk⟩
  | gstop hn => exact ⟨dropSeps_length _, fun hk => GKind.noConfusion hk⟩
  | glead hc h1 h2 hg ih1 ih2 ihg =>
    rename_i cs0 r10 mid0 r20 rest0
    have h0 := GCount_len hc
    have hd := dropSeps_length cs0
    have ha := ih1.2 rfl
    have hb := ih2.1
    have hgg := ihg.1
    exact ⟨by omega, fun hk => GKind.noConfusion hk⟩
  | gplain hu h1 hg ih1 ihg =>
    rename_i cs0 r10 rest0
    have hd := dropSeps_length cs0
    have ha := ih1.1
    have hgg := ihg.1
    exact ⟨by omega, fun hk => GKind.noConfusion hk⟩

theorem GUnits_len_of_unitStart {cs rest : List Char} (hs : unitStart cs)
    (h : GRel .units cs rest) : rest.length < cs.length := by
  cases h with
  | unil hn =>
    obtain ⟨c, t, hct, hcor⟩ := hs
    have := hn c (by rw [hct]; rfl)
    rcases hcor with hup | hpar
    · rw [hup] at this
      exact absurd this.1 (by simp)
    · exact absurd hpar this.2
  | ucons h1 h2 =>
    have ha := (GRel_len h1).2 rfl
    have hb := (GRel_len h2).1
    omega

/-! ## Token-level soundness: parser success yields grammar tokens -/

theorem sound_parseDec {cs rest : List Char} {d : Decimal}
    (hd : headDig cs) (h : parseDec cs = .ok (d, rest)) : GCount cs rest := by
  obtain ⟨c, t, hct, hcdig⟩ := hd
  have hdec := spanP_decomp isDigC cs
  have hne : (spanP isDigC cs).1 ≠ [] := by
    intro hnil
    have hcs2 : cs = (spanP isDigC cs).2 := by
      have h1 := hdec.1
      rw [hnil] at h1
      simpa using h1
    have h2 := hdec.2.2 c (by rw [← hcs2, hct]; rfl)
    rw [hcdig] at h2
    exact Bool.noConfusion h2
  unfold parseDec at h
  dsimp only at h
  rcases h2 : (spanP isDigC cs).2 with _ | ⟨c0, r2⟩
  · rw [h2] at h
    have hpair := Except.ok.inj h
    have hrest : rest = [] := (congrArg Prod.snd hpair).symm
    have hcs : cs = (spanP isDigC cs).1 ++ ([] : List Char) := by
      rw [← h2]; exact hdec.1
    have hg := GCount.int (spanP isDigC cs).1 [] ⟨hne, hdec.2.1⟩
      (fun x hx => Option.noConfusion hx) (fun x hx => Option.noConfusion hx)
    rw [← hcs] at hg
    rw [hrest]
    exact hg
  · rw [h2] at h
    dsimp only at h
    by_cases hdot : c0 = '.'
    · rw [if_pos hdot] at h
      by_cases hrf : (spanP isDigC r2).1 = []
      · rw [if_pos hrf] at h; exact Except.noConfusion h
      · rw [if_neg hrf] at h
        have hpair := Except.ok.inj h
        have hrest : rest = (spanP isDigC r2).2 := (congrArg Prod.snd hpair).symm
        have hdec2 := spanP_decomp isDigC r2
        subst hdot
        have hcs : cs = (spanP isDigC cs).1 ++
            '.' :: ((spanP isDigC r2).1 ++ (spanP isDigC r2).2) := by
          rw [← hdec2.1, ← h2]; exact hdec.1
        have hg := GCount.dec (spanP isDigC cs).1 (spanP isDigC r2).1 (spanP isDigC r2).2
          ⟨hne, hdec.2.1⟩ ⟨hrf, hdec2.2.1⟩ hdec2.2.2
        rw [← hcs] at hg
        rw [hrest]
        exact hg
    · rw [if_neg hdot] at h
      have hpair := Except.ok.inj h
      have hrest : rest = c0 :: r2 := (congrArg Prod.snd hpair).symm
      have hcs : cs = (spanP isDigC cs).1 ++ (c0 :: r2) := by
        rw [← h2]; exact hdec.1
      have hnd : headNotDig (c0 :: r2) := by
        intro x hx
        have hcx : c0 = x := Option.some.inj hx
        rw [← hcx]
        have h3 := hdec.2.2 c0 (by rw [h2]; rfl)
        exact h3
      have hndot : headNotDot (c0 :: r2) := by
        intro x hx
        have hcx : c0 = x := Option.some.inj hx
        rw [← hcx]; exact hdot
      have hg := GCount.int (spanP isDigC cs).1 (c0 :: r2) ⟨hne, hdec.2.1⟩ hnd hndot
      rw [← hcs] at hg
      rw [hrest]
      exact hg

theorem sound_parseCountOpt {cs rest : List Char} {d : Decimal}
    (h : parseCountOpt cs = .ok (d, rest)) : GCountOpt cs rest := by
  cases cs with
  | nil =>
    unfold parseCountOpt at h
    have hpair := Except.ok.inj h
    have hrest : rest = [] := (congrArg Prod.snd hpair).symm
    rw [hrest]
    exact GCountOpt.noCount [] (fun c hc => Option.noConfusion hc)
  | cons c t =>
    unfold parseCountOpt at h
    dsimp only at h
    by_cases hc : isDigC c
    · rw [if_pos hc] at h
      exact GCountOpt.withCount _ _ (sound_parseDec ⟨c, t, rfl, hc⟩ h)
    · rw [if_neg hc] at h
      have hpair := Except.ok.inj h
      have hrest : rest = c :: t := (congrArg Prod.snd hpair).symm
      rw [hrest]
      refine GCountOpt.noCount _ ?_
      intro x hx
      have hcx : c = x := Option.some.inj hx
      rw [← hcx]
      exact Bool.eq_false_iff.mpr hc

theorem sound_parseSym {cs rest : List Char} {z : ℕ}
    (h : parseSym cs = .ok (z, rest)) : GSym cs rest z := by
  cases cs with
  | nil => exact Except.noConfusion h
  | cons c cs' =>
    unfold parseSym at h
    dsimp only at h
    by_cases hup : isUpC c
    · rw [if_pos hup] at h
      rcases hlk : lookupSym (String.mk (c :: (spanP isLoC cs').1)) with _ | z0
      · rw [hlk] at h; exact Except.noConfusion h
      · rw [hlk] at h
        dsimp only at h
        have hpair := Except.ok.inj h
        have hz : z0 = z := congrArg Prod.fst hpair
        have hrest : rest = (spanP isLoC cs').2 := (congrArg Prod.snd hpair).symm
        have hdec := spanP_decomp isLoC cs'
        have hcs : (String.mk (c :: (spanP isLoC cs').1)).toList ++ (spanP isLoC cs').2
            = c :: cs' := by
          show (c :: (spanP isLoC cs').1) ++ (spanP isLoC cs').2 = c :: cs'
          rw [List.cons_append, ← hdec.1]
        have hg := GSym.mk (String.mk (c :: (spanP isLoC cs').1)) z (spanP isLoC cs').2
          (by rw [hlk, hz]) hdec.2.2
        rw [hcs] at hg
        rw [hrest]
        exact hg
    · rw [if_neg hup] at h; exact Except.noConfusion h

theorem sound_parseIso {z : ℕ} {cs rest : List Char} {iso : Option ℕ}
    (h : parseIso z cs = .ok (iso, rest)) : GIso z cs rest := by
  cases cs with
  | nil =>
    unfold parseIso at h
    have hpair := Except.ok.inj h
    have hrest : rest = [] := (congrArg Prod.snd hpair).symm
    rw [hrest]
    exact GIso.bare z [] (fun c hc => Option.noConfusion hc)
  | cons c r =>
    unfold parseIso at h
    dsimp only at h
    by_cases hbrk : c = '['
    · rw [if_pos hbrk] at h
      by_cases hrd : (spanP isDigC r).1 = []
      · rw [if_pos hrd] at h; exact Except.noConfusion h
      · rw [if_neg hrd] at h
        rcases h2 : (spanP isDigC r).2 with _ | ⟨c2, r2⟩
        · rw [h2] at h; exact Except.noConfusion h
        · rw [h2] at h
          dsimp only at h
          by_cases hc2 : c2 = ']'
          · rw [if_pos hc2] at h
            by_cases hok : isoOk z (natFromDigits 0 (spanP isDigC r).1)
            · rw [if_pos hok] at h
              have hpair := Except.ok.inj h
              have hrest : rest = r2 := (congrArg Prod.snd hpair).symm
              have hdec := spanP_decomp isDigC r
              have hr : r = (spanP isDigC r).1 ++ ']' :: r2 := by
                rw [← hc2, ← h2]; exact hdec.1
              subst hbrk
              have hg := GIso.isot z (spanP isDigC r).1 r2 ⟨hrd, hdec.2.1⟩ hok
              rw [← hr] at hg
              rw [hrest]
              exact hg
            · rw [if_neg hok] at h; exact Except.noConfusion h
          · rw [if_neg hc2] at h; exact Except.noConfusion h
    · rw [if_neg hbrk] at h
      have hpair := Except.ok.inj h
      have hrest : rest = c :: r := (congrArg Prod.snd hpair).symm
      rw [hrest]
      refine GIso.bare z _ ?_
      intro x hx
      have hcx : c = x := Option.some.inj hx
      rw [← hcx]; exact hbrk

/-- On input that starts no unit, the unit parser consumes nothing. -/
theorem parseUnit_noUnit (fuel : ℕ) {cs : List Char} (h : notUnitStart cs) :
    parseUnit fuel cs = .ok (none, cs) := by
  cases cs with
  | nil => rw [parseUnit.eq_def]
  | cons c t =>
    have hc := h c rfl
    rw [parseUnit.eq_def]
    dsimp only
    rw [if_neg (by rw [hc.1]; exact Bool.noConfusion), if_neg hc.2]

/-! ## Token-level completeness: grammar tokens parse back -/

theorem isDigC_rbrk : isDigC ']' = false := by decide

theorem compl_parseDec {cs rest : List Char} (h : GCount cs rest) :
    ∃ d, parseDec cs = .ok (d, rest) := by
  cases h with
  | int ds rest0 hds hnd hndot =>
    have hspan : spanP isDigC (ds ++ rest) = (ds, rest) :=
      spanP_exact isDigC ds rest hds.2 hnd
    refine ⟨⟨natFromDigits 0 ds, 0⟩, ?_⟩
    unfold parseDec
    rw [hspan]
    cases rest with
    | nil => rfl
    | cons c0 r2 =>
      dsimp only
      rw [if_neg (hndot c0 rfl)]
  | dec ds fs rest0 hds hfs hnd =>
    have hdot : isDigC '.' = false := by decide
    have hspan : spanP isDigC (ds ++ '.' :: (fs ++ rest)) = (ds, '.' :: (fs ++ rest)) := by
      refine spanP_exact isDigC ds ('.' :: (fs ++ rest)) hds.2 ?_
      intro c hc
      have hcx : '.' = c := Option.some.inj hc
      rw [← hcx]; exact hdot
    have hspan2 : spanP isDigC (fs ++ rest) = (fs, rest) :=
      spanP_exact isDigC fs rest hfs.2 hnd
    refine ⟨⟨natFromDigits 0 (ds ++ fs), fs.length⟩, ?_⟩
    unfold parseDec
    rw [hspan]
    dsimp only
    rw [if_pos rfl]
    rw [hspan2]
    dsimp only
    rw [if_neg hfs.1]

theorem compl_parseCountOpt {cs rest : List Char} (h : GCountOpt cs rest) :
    ∃ d, parseCountOpt cs = .ok (d, rest) := by
  cases h with
  | noCount hnd =>
    cases cs with
    | nil => exact ⟨Decimal.one, rfl⟩
    | cons c t =>
      refine ⟨Decimal.one, ?_⟩
      unfold parseCountOpt
      dsimp only
      have hcd : ¬ isDigC c = true := by
        intro hdig
        have h2 := hnd c rfl
        rw [hdig] at h2
        exact Bool.noConfusion h2
      rw [if_neg hcd]
  | withCount c0 hc =>
    obtain ⟨c, t, hct, hcdig⟩ := GCount_headDig hc
    obtain ⟨d, hd⟩ := compl_parseDec hc
    refine ⟨d, ?_⟩
    rw [hct]
    unfold parseCountOpt
    dsimp only
    rw [if_pos hcdig, ← hct]
    exact hd

theorem compl_parseSym {cs rest : List Char} {z : ℕ} (h : GSym cs rest z) :
    parseSym cs = .ok (z, rest) := by
  cases h with
  | mk s rest0 z0 hlk hnl =>
    obtain ⟨c, lo, hct, hup, hlo⟩ := symShape_cons (symShape_of_lookup hlk)
    rw [hct]
    show parseSym (c :: (lo ++ rest)) = .ok (z, rest)
    unfold parseSym
    dsimp only
    rw [if_pos hup, spanP_exact isLoC lo rest hlo hnl]
    dsimp only
    have hmk : String.mk (c :: lo) = s := by
      rw [← hct]
      exact String.mk_toList s
    rw [hmk, hlk]

theorem compl_parseIso {z : ℕ} {cs rest : List Char} (h : GIso z cs rest) :
    ∃ iso, parseIso z cs = .ok (iso, rest) := by
  cases h with
  | bare z0 hn => exact ⟨none, parseIso_none z _ hn⟩
  | isot ds rest0 hds hok =>
    have hspan : spanP isDigC (ds ++ ']' :: rest) = (ds, ']' :: rest) := by
      refine spanP_exact isDigC ds (']' :: rest) hds.2 ?_
      intro c hc
      have hcx : ']' = c := Option.some.inj hc
      rw [← hcx]; exact isDigC_rbrk
    refine ⟨some (natFromDigits 0 ds), ?_⟩
    unfold parseIso
    dsimp only
    rw [if_pos rfl]
    rw [hspan]
    dsimp only
    rw [if_neg hds.1]
    rw [if_pos rfl, if_pos hok]

/-! ## Parser soundness: success with adequate fuel yields grammar phrases -/

mutual
theorem sound_parseUnit : ∀ (fuel : ℕ) (cs rest : List Char)
    (out : Option (Decimal × FNode)), 3 * cs.length + 2 ≤ fuel →
    parseUnit fuel cs = .ok (out, rest) →
    (out = none ∧ rest = cs ∧ notUnitStart cs)
    ∨ (∃ cn, out = some cn ∧ GRel .unit cs rest)
  | 0, cs, rest, out => by
    intro hf h
    exact absurd hf (by omega)
  | fuel + 1, cs, rest, out => by
    intro hf h
    cases cs with
    | nil =>
      rw [parseUnit.eq_def] at h
      dsimp only at h
      have hpair := Except.ok.inj h
      exact .inl ⟨(congrArg Prod.fst hpair).symm, (congrArg Prod.snd hpair).symm,
        fun c hc => Option.noConfusion hc⟩
    | cons c cs' =>
      rw [parseUnit.eq_def] at h
      dsimp only at h
      by_cases hup : isUpC c
      · rw [if_pos hup] at h
        obtain ⟨zr, hzr, h⟩ := bind_ok_inv h
        obtain ⟨ir, hir, h⟩ := bind_ok_inv h
        obtain ⟨cr, hcr, h⟩ := map_ok_inv h
        refine .inr ⟨(cr.1, FNode.atom ⟨zr.1, ir.1⟩), (congrArg Prod.fst h).symm, ?_⟩
        have hrest : rest = cr.2 := (congrArg Prod.snd h).symm
        rw [hrest]
        exact GRel.atom (sound_parseSym hzr) (sound_parseIso hir) (sound_parseCountOpt hcr)
      · rw [if_neg hup] at h
        by_cases hpar : c = '('
        · rw [if_pos hpar] at h
          obtain ⟨fr, hfr, h⟩ := bind_ok_inv h
          rcases h2 : fr.2 with _ | ⟨c2, r2⟩
          · rw [h2] at h; exact Except.noConfusion h
          · rw [h2] at h
            dsimp only at h
            by_cases hc2 : c2 = ')'
            · rw [if_pos hc2] at h
              obtain ⟨cr, hcr, h⟩ := map_ok_inv h
              refine .inr ⟨(cr.1, FNode.group fr.1), (congrArg Prod.fst h).symm, ?_⟩
              have hrest : rest = cr.2 := (congrArg Prod.snd h).symm
              have hg := sound_parseGroups fuel cs' fr.2 fr.1
                (by simp only [List.length_cons] at hf; omega) hfr
              rw [h2, hc2] at hg
              have hu := GRel.grp hg (sound_parseCountOpt hcr)
              rw [hrest, hpar]
              exact hu
            · rw [if_neg hc2] at h; exact Except.noConfusion h
        · rw [if_neg hpar] at h
          have hpair := Except.ok.inj h
          refine .inl ⟨(congrArg Prod.fst hpair).symm, (congrArg Prod.snd hpair).symm, ?_⟩
          intro x hx
          have hcx : c = x := Option.some.inj hx
          rw [← hcx]
          exact ⟨Bool.eq_false_iff.mpr hup, hpar⟩

theorem sound_parseUnits : ∀ (fuel : ℕ) (cs rest : List Char) (fs : Frags),
    3 * cs.length + 3 ≤ fuel → parseUnits fuel cs = .ok (fs, rest) →
    GRel .units cs rest
    ∧ (fs = .fnil → rest = cs ∧ notUnitStart cs)
    ∧ (fs ≠ .fnil → ∃ mid, GRel .unit cs mid ∧ GRel .units mid rest)
  | 0, cs, rest, fs => by
    intro hf h
    exact absurd hf (by omega)
  | fuel + 1, cs, rest, fs => by
    intro hf h
    rw [parseUnits.eq_def] at h
    dsimp only at h
    obtain ⟨ur, hur, h⟩ := bind_ok_inv h
    rcases hu1 : ur.1 with _ | cn
    · rw [hu1] at h
      dsimp only at h
      have hpair := Except.ok.inj h
      have hfs : fs = .fnil := (congrArg Prod.fst hpair).symm
      have hrest : rest = ur.2 := (congrArg Prod.snd hpair).symm
      rcases sound_parseUnit fuel cs ur.2 ur.1 (by omega) hur with
        ⟨_, hcseq, hnus⟩ | ⟨cn, hcn, _⟩
      · refine ⟨?_, ?_, ?_⟩
        · rw [hrest, hcseq]; exact GRel.unil hnus
        · intro _; exact ⟨by rw [hrest, hcseq], hnus⟩
        · intro hne; exact absurd hfs hne
      · rw [hu1] at hcn; exact Option.noConfusion hcn
    · rw [hu1] at h
      dsimp only at h
      obtain ⟨fr, hfr, h⟩ := map_ok_inv h
      have hfs : fs = .fcons cn.1 cn.2 fr.1 := (congrArg Prod.fst h).symm
      have hrest : rest = fr.2 := (congrArg Prod.snd h).symm
      rcases sound_parseUnit fuel cs ur.2 ur.1 (by omega) hur with
        ⟨hnone, _, _⟩ | ⟨cn2, hcn2, hgu⟩
      · rw [hu1] at hnone; exact Option.noConfusion hnone
      · have hulen := (GRel_len hgu).2 rfl
        have hrec := sound_parseUnits fuel ur.2 fr.2 fr.1 (by omega) hfr
        refine ⟨?_, ?_, ?_⟩
        · rw [hrest]; exact GRel.ucons hgu hrec.1
        · intro hceq; rw [hfs] at hceq; exact Frags.noConfusion hceq
        · intro _; exact ⟨ur.2, hgu, by rw [hrest]; exact hrec.1⟩

theorem sound_parseGroups : ∀ (fuel : ℕ) (cs rest : List Char) (fs : Frags),
    3 * cs.length + 4 ≤ fuel → parseGroups fuel cs = .ok (fs, rest) →
    GRel .groups cs rest
  | 0, cs, rest, fs => by
    intro hf h
    exact absurd hf (by omega)
  | fuel + 1, cs, rest, fs => by
    intro hf h
    rw [parseGroups.eq_def] at h
    dsimp only at h
    rcases hds : dropSeps cs with _ | ⟨c, cs1⟩
    · rw [hds] at h
      dsimp only at h
      have hpair := Except.ok.inj h
      have hrest : rest = [] := (congrArg Prod.snd hpair).symm
      have hg := @GRel.gstop cs
        (by rw [hds]; exact fun x hx => Option.noConfusion hx)
      rw [hds] at hg
      rw [hrest]
      exact hg
    · rw [hds] at h
      dsimp only at h
      by_cases hrp : c = ')'
      · rw [if_pos hrp] at h
        have hpair := Except.ok.inj h
        have hrest : rest = c :: cs1 := (congrArg Prod.snd hpair).symm
        have hng : notGroupStart (dropSeps cs) := by
          intro x hx
          rw [hds] at hx
          have hcx : c = x := Option.some.inj hx
          rw [← hcx]
          subst hrp
          exact ⟨by decide, by decide, by decide⟩
        have hg := @GRel.gstop cs hng
        rw [hds] at hg
        rw [hrest]
        exact hg
      · rw [if_neg hrp] at h
        by_cases hdig : isDigC c
        · rw [if_pos hdig] at h
          obtain ⟨kr, hkr, h⟩ := bind_ok_inv h
          obtain ⟨ur, hur, h⟩ := bind_ok_inv h
          by_cases hfn : ur.1 = .fnil
          · rw [if_pos hfn] at h; exact Except.noConfusion h
          · rw [if_neg hfn] at h
            obtain ⟨gr, hgr, h⟩ := map_ok_inv h
            have hrest : rest = gr.2 := (congrArg Prod.snd h).symm
            have hgc : GCount (dropSeps cs) kr.2 := by
              rw [hds]
              exact sound_parseDec ⟨c, cs1, rfl, hdig⟩ hkr
            have hclen := GCount_len hgc
            have hdslen := dropSeps_length cs
            have hsu := sound_parseUnits fuel kr.2 ur.2 ur.1 (by omega) hur
            obtain ⟨mid, hu, hus⟩ := hsu.2.2 hfn
            have hulen := (GRel_len hu).2 rfl
            have huslen := (GRel_len hus).1
            have hgg := sound_parseGroups fuel ur.2 gr.2 gr.1 (by omega) hgr
            rw [hrest]
            exact GRel.glead hgc hu hus hgg
        · rw [if_neg hdig] at h
          by_cases hcor : isUpC c = true ∨ c = '('
          · have hcond : (isUpC c || decide (c = '(')) = true := by
              rcases hcor with h1 | h1
              · rw [h1]; rfl
              · rw [h1]; simp
            rw [if_pos hcond] at h
            obtain ⟨ur, hur, h⟩ := bind_ok_inv h
            obtain ⟨gr, hgr, h⟩ := map_ok_inv h
            have hrest : rest = gr.2 := (congrArg Prod.snd h).symm
            have hl : (c :: cs1).length ≤ cs.length := by
              rw [← hds]; exact dropSeps_length cs
            have hsu := sound_parseUnits fuel (c :: cs1) ur.2 ur.1 (by omega) hur
            have hfn : ur.1 ≠ .fnil := by
              intro hceq
              have hnus := (hsu.2.1 hceq).2
              have h2 := hnus c rfl
              rcases hcor with h1 | h1
              · rw [h1] at h2; exact Bool.noConfusion h2.1
              · exact absurd h1 h2.2
            obtain ⟨mid, hu, hus⟩ := hsu.2.2 hfn
            have hulen := (GRel_len hu).2 rfl
            have huslen := (GRel_len hus).1
            have hgg := sound_parseGroups fuel ur.2 gr.2 gr.1 (by omega) hgr
            have hg := @GRel.gplain cs _ _ (by rw [hds]; exact ⟨c, cs1, rfl, hcor⟩)
              (by rw [hds]; exact hsu.1) hgg
            rw [hrest]
            exact hg
          · have hcond : ¬ ((isUpC c || decide (c = '(')) = true) := by
              simp only [Bool.or_eq_true, decide_eq_true_eq]
              push_neg at hcor
              intro hor
              rcases hor with h1 | h1
              · exact hcor.1 h1
              · exact hcor.2 h1
            rw [if_neg hcond] at h
            have hpair := Except.ok.inj h
            have hrest : rest = c :: cs1 := (congrArg Prod.snd hpair).symm
            push_neg at hcor
            have hng : notGroupStart (dropSeps cs) := by
              intro x hx
              rw [hds] at hx
              have hcx : c = x := Option.some.inj hx
              rw [← hcx]
              exact ⟨Bool.eq_false_iff.mpr hcor.1, hcor.2, Bool.eq_false_iff.mpr hdig⟩
            have hg := @GRel.gstop cs hng
            rw [hds] at hg
            rw [hrest]
            exact hg
end

/-! ## Parser completeness: grammar phrases parse back with adequate fuel -/

/-- Fuel adequacy offset for each phrase level. -/
def gkNeed : GKind → ℕ
  | .unit => 2
  | .units => 3
  | .groups => 4

/-- The completeness statement for each phrase level. -/
def ComplGoal (k : GKind) (cs rest : List Char) (fuel : ℕ) : Prop :=
  match k with
  | .unit => ∃ cn, parseUnit fuel cs = .ok (some cn, rest)
  | .units => ∃ fs, parseUnits fuel cs = .ok (fs, rest)
  | .groups => ∃ fs, parseGroups fuel cs = .ok (fs, rest)

theorem compl_grel {k : GKind} {cs rest : List Char} (h : GRel k cs rest) :
    ∀ fuel : ℕ, 3 * cs.length + gkNeed k ≤ fuel → ComplGoal k cs rest fuel := by
  induction h with
  | atom hsym hiso hcnt =>
    rename_i cs0 r1 r2 rest0 z0
    intro fuel hf
    cases hsym with
    | mk s rest1 z1 hlk hnl =>
      obtain ⟨c, lo, hct, hup, hlo⟩ := symShape_cons (symShape_of_lookup hlk)
      have hps : parseSym (s.toList ++ r1) = .ok (z0, r1) :=
        compl_parseSym (GSym.mk s z0 r1 hlk hnl)
      obtain ⟨iso, hpi⟩ := compl_parseIso hiso
      obtain ⟨d, hpc⟩ := compl_parseCountOpt hcnt
      show ∃ cn, parseUnit fuel (s.toList ++ r1) = .ok (some cn, rest0)
      have hcs : s.toList ++ r1 = c :: (lo ++ r1) := by rw [hct]; rfl
      rw [parseUnit.eq_def, hcs]
      dsimp only
      rw [if_pos hup, ← hcs, hps, okBind]
      dsimp only
      rw [hpi, okBind]
      dsimp only
      rw [hpc, okMap]
      exact ⟨(d, .atom ⟨z0, iso⟩), rfl⟩
  | grp hg hcnt ihg =>
    rename_i inner r2 rest0
    intro fuel hf
    dsimp only [gkNeed] at hf
    simp only [List.length_cons] at hf
    obtain ⟨f, rfl⟩ : ∃ f, fuel = f + 1 := ⟨fuel - 1, by omega⟩
    obtain ⟨gfs, hpg⟩ := ihg f (by dsimp only [gkNeed]; omega)
    obtain ⟨d, hpc⟩ := compl_parseCountOpt hcnt
    show ∃ cn, parseUnit (f + 1) ('(' :: inner) = .ok (some cn, rest0)
    rw [parseUnit.eq_def]
    dsimp only
    have hnup : ¬ isUpC '(' = true := by decide
    rw [if_neg hnup, if_pos rfl, hpg, okBind]
    dsimp only
    rw [if_pos rfl, hpc, okMap]
    exact ⟨(d, .group gfs), rfl⟩
  | unil hn =>
    rename_i cs0
    intro fuel hf
    dsimp only [gkNeed] at hf
    obtain ⟨f, rfl⟩ : ∃ f, fuel = f + 1 := ⟨fuel - 1, by omega⟩
    show ∃ fs, parseUnits (f + 1) cs0 = .ok (fs, cs0)
    rw [parseUnits.eq_def]
    dsimp only
    rw [parseUnit_noUnit f hn, okBind]
    exact ⟨.fnil, rfl⟩
  | ucons h1 h2 ih1 ih2 =>
    rename_i cs0 mid0 rest0
    intro fuel hf
    dsimp only [gkNeed] at hf
    obtain ⟨f, rfl⟩ : ∃ f, fuel = f + 1 := ⟨fuel - 1, by omega⟩
    have hmlen := (GRel_len h1).2 rfl
    obtain ⟨cn, hp1⟩ := ih1 f (by dsimp only [gkNeed]; omega)
    obtain ⟨fs2, hp2⟩ := ih2 f (by dsimp only [gkNeed]; omega)
    show ∃ fs, parseUnits (f + 1) cs0 = .ok (fs, rest0)
    rw [parseUnits.eq_def]
    dsimp only
    rw [hp1, okBind]
    dsimp only
    rw [hp2, okMap]
    exact ⟨.fcons cn.1 cn.2 fs2, rfl⟩
  | gstop hn =>
    rename_i cs0
    intro fuel hf
    dsimp only [gkNeed] at hf
    obtain ⟨f, rfl⟩ : ∃ f, fuel = f + 1 := ⟨fuel - 1, by omega⟩
    show ∃ fs, parseGroups (f + 1) cs0 = .ok (fs, dropSeps cs0)
    rw [parseGroups.eq_def]
    dsimp only
    rcases hds : dropSeps cs0 with _ | ⟨c, cs1⟩
    · exact ⟨.fnil, rfl⟩
    · dsimp only
      have hc := hn c (by rw [hds]; rfl)
      by_cases hrp : c = ')'
      · rw [if_pos hrp]
        exact ⟨.fnil, rfl⟩
      · have hndig : ¬ isDigC c = true := by
          intro hx
          rw [hc.2.2] at hx
          exact Bool.noConfusion hx
        have hnor : ¬ ((isUpC c || decide (c = '(')) = true) := by
          simp only [Bool.or_eq_true, decide_eq_true_eq]
          intro hor
          rcases hor with h1 | h1
          · rw [hc.1] at h1; exact Bool.noConfusion h1
          · exact hc.2.1 h1
        rw [if_neg hrp, if_neg hndig, if_neg hnor]
        exact ⟨.fnil, rfl⟩
  | glead hc h1 h2 hg ih1 ih2 ihg =>
    rename_i cs0 r10 mid0 r20 rest0
    intro fuel hf
    dsimp only [gkNeed] at hf
    have hdsl := dropSeps_length cs0
    have hcl := GCount_len hc
    have hul := (GRel_len h1).2 rfl
    have husl := (GRel_len h2).1
    obtain ⟨f, rfl⟩ : ∃ f, fuel = f + 1 := ⟨fuel - 1, by omega⟩
    obtain ⟨c, t, hct, hcdig⟩ := GCount_headDig hc
    obtain ⟨d, hpd⟩ := compl_parseDec hc
    show ∃ fs, parseGroups (f + 1) cs0 = .ok (fs, rest0)
    rw [parseGroups.eq_def]
    dsimp only
    rw [hct]
    dsimp only
    have hnrp : ¬ c = ')' := by
      intro he
      rw [he] at hcdig
      exact absurd hcdig (by decide)
    rw [if_neg hnrp, if_pos hcdig]
    rw [hct] at hpd
    rw [hpd, okBind]
    dsimp only
    obtain ⟨f2, rfl⟩ : ∃ f2, f = f2 + 1 := ⟨f - 1, by omega⟩
    obtain ⟨cn, hp1⟩ := ih1 f2 (by dsimp only [gkNeed]; omega)
    obtain ⟨fs2, hp2⟩ := ih2 f2 (by dsimp only [gkNeed]; omega)
    have hpu : parseUnits (f2 + 1) r10 = .ok (.fcons cn.1 cn.2 fs2, r20) := by
      rw [parseUnits.eq_def]
      dsimp only
      rw [hp1, okBind]
      dsimp only
      rw [hp2, okMap]
    rw [hpu, okBind]
    dsimp only
    have hfn : ¬ (Frags.fcons cn.1 cn.2 fs2 = .fnil) := fun hx => Frags.noConfusion hx
    rw [if_neg hfn]
    obtain ⟨gfs, hpg⟩ := ihg (f2 + 1) (by dsimp only [gkNeed]; omega)
    rw [hpg, okMap]
    exact ⟨.fcons d (.group (.fcons cn.1 cn.2 fs2)) gfs, rfl⟩
  | gplain hu h1 hg ih1 ihg =>
    rename_i cs0 r10 rest0
    intro fuel hf
    dsimp only [gkNeed] at hf
    have hdsl := dropSeps_length cs0
    have hr1l := GUnits_len_of_unitStart hu h1
    obtain ⟨f, rfl⟩ : ∃ f, fuel = f + 1 := ⟨fuel - 1, by omega⟩
    obtain ⟨c, t, hct, hcor⟩ := hu
    show ∃ fs, parseGroups (f + 1) cs0 = .ok (fs, rest0)
    rw [parseGroups.eq_def]
    dsimp only
    rw [hct]
    dsimp only
    have hnrp : ¬ c = ')' := by
      rcases hcor with h3 | h3
      · exact isUpC_ne_rparen h3
      · rw [h3]; decide
    have hndig : ¬ isDigC c = true := by
      intro hx
      rcases hcor with h3 | h3
      · rw [isUpC_not_dig h3] at hx; exact Bool.noConfusion hx
      · rw [h3] at hx; exact absurd hx (by decide)
    have hor : (isUpC c || decide (c = '(')) = true := by
      rcases hcor with h3 | h3
      · rw [h3]; rfl
      · rw [h3]; simp
    rw [if_neg hnrp, if_neg hndig, if_pos hor]
    obtain ⟨us, hp1⟩ := ih1 f (by dsimp only [gkNeed]; omega)
    rw [hct] at hp1
    rw [hp1, okBind]
    dsimp only
    obtain ⟨gfs, hpg⟩ := ihg f (by dsimp only [gkNeed]; omega)
    rw [hpg, okMap]
    exact ⟨us.append gfs, rfl⟩

/-! ## Exact characterization of parse failure -/

/-- Completeness at the top level: a grammatical string parses. -/
theorem formula_grammar_ok_of_grammatical {s : String} (h : Grammatical s) :
    ∃ fs, formula_grammar s = .ok fs := by
  obtain ⟨fs, hp⟩ := compl_grel h (3 * s.toList.length + 4) (Nat.le_refl _)
  refine ⟨fs, ?_⟩
  unfold formula_grammar
  dsimp only
  rw [hp]

/-- Soundness at the top level: a string that parses is grammatical. -/
theorem grammatical_of_formula_grammar_ok {s : String} {fs : Frags}
    (h : formula_grammar s = .ok fs) : Grammatical s := by
  unfold formula_grammar at h
  dsimp only at h
  rcases hp : parseGroups (3 * s.toList.length + 4) s.toList with e | ⟨fs0, rest0⟩
  · rw [hp] at h
    exact Except.noConfusion h
  · rw [hp] at h
    dsimp only at h
    cases rest0 with
    | nil =>
      exact sound_parseGroups (3 * s.toList.length + 4) s.toList [] fs0 (Nat.le_refl _) hp
    | cons a b => exact Except.noConfusion h

/-! ## Mass evaluation lemmas -/

theorem totalMassMap_none : ∀ m : Map, (∃ p ∈ m, atomMass p.1 = none) →
    totalMassMap m = none := by
  intro m
  induction m with
  | nil =>
    intro ⟨p, hp, _⟩
    exact absurd hp (List.not_mem_nil p)
  | cons q m ih =>
    intro ⟨p, hp, hnone⟩
    rcases List.mem_cons.mp hp with hpq | hpm
    · subst hpq
      simp only [totalMassMap, hnone]
    · simp only [totalMassMap, ih ⟨p, hpm, hnone⟩]
      cases atomMass q.1 <;> rfl

theorem totalMassMap_some : ∀ m : Map, (∀ p ∈ m, (atomMass p.1).isSome) →
    totalMassMap m = some (weightedMassSum m) := by
  intro m
  induction m with
  | nil => intro _; rfl
  | cons q m ih =>
    intro h
    have hq := h q (List.mem_cons_self _ _)
    cases hma : atomMass q.1 with
    | none => rw [hma] at hq; simp at hq
    | some ma =>
      simp only [totalMassMap, hma, ih (fun p hp => h p (List.mem_cons_of_mem _ hp))]
      simp only [weightedMassSum, hma, Option.getD_some]

/-! ## Scattering length density entry points

Modelled from the spec: `neutron_sld` and `xray_sld` require an effective
density — the explicit argument if given, else the Formula's declared
density — and fail with a missing-density error when neither is available.
The numeric scattering coefficients are schematic stand-ins for the
external data tables (`nsf.py`, `xsf.py`), which are not part of the
source excerpt; only the density-resolution contract is claimed. -/

inductive SldError where
  | missingDensity
deriving DecidableEq, Repr

/-- Modelled from the spec: resolve the effective density — the explicit
argument takes precedence, else the Formula's declared density, else a
MissingDensityError. -/
def resolveDensity (density : Option ℚ) (F : Formula) : Except SldError ℚ :=
  match density with
  | some d => .ok d
  | none =>
    match F.density with
    | some d => .ok d
    | none => .error .missingDensity

/-- Composition-weighted sum of a per-atom coefficient. -/
def sumCoeff (f : AtomRef → ℚ) : Map → ℚ
  | [] => 0
  | p :: m => p.2.val * f p.1 + sumCoeff f m

/-- Schematic neutron coherent scattering length (fm) per element. -/
def bcoh (a : AtomRef) : ℚ :=
  match a.elem with
  | 1 => -37406 / 10000
  | 6 => 66460 / 10000
  | 7 => 936 / 100
  | 8 => 5803 / 1000
  | 14 => 41491 / 10000
  | 20 => 470 / 100
  | 43 => 68 / 10
  | _ => 0

/-- Schematic neutron absorption coefficient per element. -/
def babs (a : AtomRef) : ℚ :=
  match a.elem with
  | 1 => 3326 / 10000
  | 6 => 35 / 10000
  | 7 => 19 / 10
  | 8 => 19 / 100000
  | 14 => 171 / 1000
  | 20 => 43 / 100
  | 43 => 20
  | _ => 0

/-- Schematic incoherent scattering coefficient per element. -/
def binc (a : AtomRef) : ℚ :=
  match a.elem with
  | 1 => 8027 / 100
  | 6 => 1 / 1000
  | 7 => 5 / 10
  | 8 => 8 / 10000
  | 14 => 4 / 1000
  | 20 => 5 / 100
  | 43 => 5 / 10
  | _ => 0

/-- Modelled from the spec: the neutron scattering computation given a
resolved density — composition-weighted sums scaled by density (and by
wavelength for the absorption term). -/
def neutronCalc (F : Formula) (d wavelength : ℚ) : ℚ × ℚ × ℚ :=
  (d * sumCoeff bcoh (flattenFormula F),
   d * wavelength * sumCoeff babs (flattenFormula F),
   d * sumCoeff binc (flattenFormula F))

/-- Modelled from the spec: `neutron_sld(formula, density, wavelength)`,
returning scattering length density, absorption and incoherent scattering
or failing when no density is resolvable. -/
def neutron_sld (F : Formula) (density : Option ℚ) (wavelength : ℚ) :
    Except SldError (ℚ × ℚ × ℚ) :=
  (resolveDensity density F).map (fun d => neutronCalc F d wavelength)

/-- Schematic X-ray scattering factor per element. -/
def xf1 (a : AtomRef) : ℚ := (a.elem : ℚ)

/-- Schematic X-ray absorption factor per element. -/
def xf2 (a : AtomRef) : ℚ := (a.elem : ℚ) / 10

/-- Modelled from the spec: the X-ray scattering computation given a
resolved density and a wavelength or energy. -/
def xrayCalc (F : Formula) (d : ℚ) (wavelength energy : Option ℚ) : ℚ × ℚ :=
  (d * sumCoeff xf1 (flattenFormula F),
   d * (wavelength.getD (energy.getD 1)) * sumCoeff xf2 (flattenFormula F))

/-- Modelled from the spec: `xray_sld(formula, density, wavelength,
energy)`, failing when no density is resolvable. -/
def xray_sld (F : Formula) (density : Option ℚ) (wavelength energy : Option ℚ) :
    Except SldError (ℚ × ℚ) :=
  (resolveDensity density F).map (fun d => xrayCalc F d wavelength energy)

/-! ## Import-time initialization and delayed loading

Transcribed from `periodictable/__init__.py` lines 94-152: `mass.init` and
`density.init` run eagerly at import ("Always make mass and density
available"); `covalent_radius`, `crystal_structure`, `neutron` and the
`xray`/`K_alpha`/`K_beta1` triple are registered with `core.delayed_load`;
`K_alpha_units` and `K_beta1_units` are assigned on the Element class
during import.  The `core.delayed_load` mechanism itself is modelled from
the spec: the first access to a registered name runs its loader once
(guarded by a one-time-init flag), installing every name of the
registration. -/

inductive ImportAction where
  | eagerInit (props : List String)
  | delayedRegister (names : List String) (loader : String)
  | setClassAttr (attr val : String)
deriving DecidableEq, Repr

/-- The import-time actions of `periodictable/__init__.py` (lines 94-152),
in source order. -/
def importActions : List ImportAction :=
  [.eagerInit ["mass"],
   .eagerInit ["density"],
   .delayedRegister ["covalent_radius"] "covalent_radius",
   .delayedRegister ["crystal_structure"] "crystal_structure",
   .delayedRegister ["neutron"] "nsf",
   .delayedRegister ["xray", "K_alpha", "K_beta1"] "xsf",
   .setClassAttr "K_alpha_units" "angstrom",
   .setClassAttr "K_beta1_units" "angstrom"]

/-- The table state: property sets already installed on elements, pending
delayed-load registrations, loaders already run, and class attributes. -/
structure TableState where
  installed : List String
  registrations : List (List String × String)
  loaded : List String
  classAttrs : List (String × String)
deriving DecidableEq, Repr

def importStep (st : TableState) : ImportAction → TableState
  | .eagerInit props => { st with installed := st.installed ++ props }
  | .delayedRegister names loader =>
    { st with registrations := st.registrations ++ [(names, loader)] }
  | .setClassAttr a v => { st with classAttrs := st.classAttrs ++ [(a, v)] }

/-- The state after `import periodictable` completes. -/
def importedState : TableState := importActions.foldl importStep ⟨[], [], [], []⟩

/-- Modelled from the spec: attribute access on an element.  If the name is
not yet installed and has a delayed-load registration whose loader has not
run, the loader runs (returned as `some loader`) and installs every name
of its registration; otherwise nothing happens. -/
def access (st : TableState) (name : String) : TableState × Option String :=
  if name ∈ st.installed then (st, none)
  else
    match st.registrations.find? (fun r => name ∈ r.1) with
    | none => (st, none)
    | some (names, loader) =>
      if loader ∈ st.loaded then (st, none)
      else
        (⟨st.installed ++ names, st.registrations, st.loaded ++ [loader],
          st.classAttrs⟩, some loader)

/-- Run a sequence of attribute accesses, logging the loaders run. -/
def accessRun : TableState → List String → TableState × List String
  | st, [] => (st, [])
  | st, a :: as =>
    match access st a with
    | (st1, none) => accessRun st1 as
    | (st1, some l) =>
      let r := accessRun st1 as
      (r.1, l :: r.2)

theorem access_spec (st : TableState) (a : String) :
    ((access st a).2 = none ∧ (access st a).1.loaded = st.loaded) ∨
    (∃ l, (access st a).2 = some l ∧ l ∉ st.loaded
      ∧ (access st a).1.loaded = st.loaded ++ [l]) := by
  unfold access
  by_cases h1 : a ∈ st.installed
  · rw [if_pos h1]
    left
    exact ⟨rfl, rfl⟩
  · rw [if_neg h1]
    cases hf : st.registrations.find? (fun r => a ∈ r.1) with
    | none =>
      left
      exact ⟨rfl, rfl⟩
    | some p =>
      obtain ⟨names, loader⟩ := p
      dsimp only
      by_cases h2 : loader ∈ st.loaded
      · rw [if_pos h2]
        left
        exact ⟨rfl, rfl⟩
      · rw [if_neg h2]
        right
        exact ⟨loader, rfl, h2, rfl⟩

theorem accessRun_fresh : ∀ (accs : List String) (st : TableState),
    (∀ l ∈ (accessRun st accs).2, l ∉ st.loaded) ∧ (accessRun st accs).2.Nodup
  | [], st => by
    constructor
    · intro l hl
      simp [accessRun] at hl
    · simp [accessRun]
  | a :: as, st => by
    rcases hacc : access st a with ⟨st1, o⟩
    have hrun : accessRun st (a :: as)
        = match access st a with
          | (st1, none) => accessRun st1 as
          | (st1, some l) =>
            let r := accessRun st1 as
            (r.1, l :: r.2) := rfl
    rw [hacc] at hrun
    have hih := accessRun_fresh as st1
    cases o with
    | none =>
      have hload : st1.loaded = st.loaded := by
        rcases access_spec st a with ⟨h2, hl⟩ | ⟨l, h2, _, _⟩
        · rw [hacc] at hl
          exact hl
        · rw [hacc] at h2
          exact Option.noConfusion h2
      rw [hrun]
      refine ⟨?_, hih.2⟩
      intro l hl
      rw [← hload]
      exact hih.1 l hl
    | some l =>
      have hspec : l ∉ st.loaded ∧ st1.loaded = st.loaded ++ [l] := by
        rcases access_spec st a with ⟨h2, _⟩ | ⟨l2, h2, hfresh, hload⟩
        · rw [hacc] at h2
          exact Option.noConfusion h2
        · rw [hacc] at h2 hload
          have : l2 = l := (Option.some.inj h2).symm
          subst this
          exact ⟨hfresh, hload⟩
      rw [hrun]
      constructor
      · intro x hx
        simp only [List.mem_cons] at hx
        rcases hx with rfl | hx
        · exact hspec.1
        · intro hmem
          exact hih.1 x hx (by rw [hspec.2]; exact List.mem_append_left _ hmem)
      · refine List.nodup_cons.mpr ⟨?_, hih.2⟩
        intro hl
        exact hih.1 l hl (by
          rw [hspec.2]
          exact List.mem_append_right _ (List.mem_singleton_self l))

/-- Each delayed loader runs at most once across any access sequence
after import: the run log never repeats a loader. -/
theorem loaders_at_most_once (accs : List String) :
    ((accessRun importedState accs).2).Nodup :=
  (accessRun_fresh accs importedState).2

/-! ## Claim theorems -/

/-- Claim C1: flattening is a homomorphism over Formula arithmetic:
`flatten(A + B)` is the key-wise merge of `flatten(A)` and `flatten(B)`
(both as the structural merge and as the key-wise sum of counts), and
`flatten(k * A)` is `flatten(A)` with every count multiplied by `k` (every
`Decimal` scalar is non-negative); in particular
`flatten(parse "3H2O") = {H: 6, O: 3}`. -/
theorem claim_C1 :
    (∀ A B : Formula,
      flattenFormula (A.add B) = merge (flattenFormula A) (flattenFormula B))
    ∧ (∀ (A B : Formula) (x : AtomRef),
      (lookupMap (flattenFormula (A.add B)) x).val
        = (lookupMap (flattenFormula A) x).val + (lookupMap (flattenFormula B) x).val)
    ∧ (∀ (k : Decimal) (A : Formula),
      flattenFormula (Formula.scale k A) = scaleMap k (flattenFormula A))
    ∧ (formula_grammar "3H2O").map flattenFrags
        = .ok [(⟨1, none⟩, ⟨6, 0⟩), (⟨8, none⟩, ⟨3, 0⟩)] := by
  refine ⟨flattenFormula_add, ?_, flattenFormula_scale, by decide⟩
  intro A B x
  rw [flattenFormula_add]
  exact lookupMap_merge _ _ x (flattenFormula_sorted A) (flattenFormula_sorted B)

/-- Claim C2 counterexample: `mass` (and `density`) are not lazy attribute
groups.  Their properties are installed eagerly while `__init__.py` runs
("Always make mass and density available", lines 94-99): they are present
in the imported state before any access, and no delayed-load registration
mentions them, so accessing them runs no loader. -/
theorem claim_C2_counterexample :
    "mass" ∈ importedState.installed
    ∧ "density" ∈ importedState.installed
    ∧ importedState.registrations.find? (fun r => "mass" ∈ r.1) = none
    ∧ importedState.registrations.find? (fun r => "density" ∈ r.1) = none
    ∧ (access importedState "mass").2 = none := by decide

/-- Claim C2 (amended): the six groups `covalent_radius`,
`crystal_structure`, `neutron`, `xray`, `K_alpha`, `K_beta1` are lazy —
absent after import, installed by the first access, which runs their
loader — while `mass` and `density` are initialized eagerly at import; and
across any sequence of accesses each delayed loader runs at most once
(the run log never repeats a loader). -/
theorem claim_C2_amended :
    ((["covalent_radius", "crystal_structure", "neutron",
       "xray", "K_alpha", "K_beta1"] : List String).all (fun n =>
        decide (n ∉ importedState.installed)
        && (access importedState n).2.isSome
        && decide (n ∈ (access importedState n).1.installed)) = true)
    ∧ "mass" ∈ importedState.installed
    ∧ "density" ∈ importedState.installed
    ∧ ∀ accs : List String, ((accessRun importedState accs).2).Nodup :=
  ⟨by decide, by decide, by decide, loaders_at_most_once⟩

/-- Claim C3: parsing the canonical string rendering of a well-formed
Formula yields a Formula whose flattened composition is identical to the
original's. -/
theorem claim_C3 (F : Formula) (h : wfFormula F = true) :
    ∃ G : Formula, formula (renderFormula F) none none = .ok G
      ∧ flattenFormula G = flattenFormula F := by
  refine ⟨⟨F.struct, none, none⟩, ?_, rfl⟩
  unfold formula
  rw [render_parse_roundtrip F h]
  rfl

/-- A well-formed Formula exercising nesting, an isotope and a fractional
count, used to witness the round trip. -/
def Fw3 : Formula :=
  ⟨.fcons ⟨25, 1⟩
      (.group (.fcons ⟨2, 0⟩ (.atom ⟨1, none⟩)
        (.fcons ⟨1, 0⟩ (.atom ⟨8, some 18⟩) .fnil)))
      (.fcons ⟨3, 0⟩ (.atom ⟨20, none⟩) .fnil),
   none, none⟩

/-- Witness for C3 at a concrete Formula. -/
theorem claim_C3_witness :
    wfFormula Fw3 = true
    ∧ ∃ G : Formula, formula (renderFormula Fw3) none none = .ok G
        ∧ flattenFormula G = flattenFormula Fw3 :=
  ⟨by decide, claim_C3 Fw3 (by decide)⟩

/-- Claim C4: over all inputs, parsing fails with a ParseError exactly
when the string is not generated by the formula grammar (whose token
relations demand a catalog element symbol, a valid isotope index, a
matched closing parenthesis, a well-formed count literal, and whose top
level demands that no characters remain); the error is never silently
recovered — `formula` surfaces it unchanged for every input and metadata;
every possible error is of one of the five listed kinds; and each kind is
exhibited by a concrete input. -/
theorem claim_C4 :
    (∀ s : String, (∃ e, formula_grammar s = .error e) ↔ ¬ Grammatical s)
    ∧ (∀ (s : String) (density : Option ℚ) (molname : Option String) (e : PErr),
        formula_grammar s = .error e → formula s density molname = .error e)
    ∧ (∀ e : PErr, (∃ sym, e = .unknownSymbol sym) ∨ e = .invalidIsotope
        ∨ e = .unbalancedParen ∨ e = .badCount ∨ (∃ r, e = .trailingChars r))
    ∧ formula "Xx2" none none = .error (.unknownSymbol "Xx")
    ∧ formula "(CaCO3" none none = .error .unbalancedParen
    ∧ formula "O[99]2" none none = .error .invalidIsotope
    ∧ formula "H2." none none = .error .badCount
    ∧ formula "H2O)" none none = .error (.trailingChars ")") := by
  refine ⟨?_, ?_, ?_, by decide, by decide, by decide, by decide, by decide⟩
  · intro s
    constructor
    · rintro ⟨e, he⟩ hg
      obtain ⟨fs, hok⟩ := formula_grammar_ok_of_grammatical hg
      rw [hok] at he
      exact Except.noConfusion he
    · intro hng
      rcases hfg : formula_grammar s with e | fs
      · exact ⟨e, rfl⟩
      · exact absurd (grammatical_of_formula_grammar_ok hfg) hng
  · intro s density molname e he
    unfold formula
    rw [he]
    rfl
  · intro e
    cases e with
    | unknownSymbol sym => exact .inl ⟨sym, rfl⟩
    | invalidIsotope => exact .inr (.inl rfl)
    | unbalancedParen => exact .inr (.inr (.inl rfl))
    | badCount => exact .inr (.inr (.inr (.inl rfl)))
    | trailingChars r => exact .inr (.inr (.inr (.inr ⟨r, rfl⟩)))

/-- Witness for C4 at a concrete input: the failure-characterization and
error-propagation conjuncts applied to `"Xx2"`. -/
theorem claim_C4_witness :
    formula "Xx2" (some 1) (some "sample") = .error (.unknownSymbol "Xx")
    ∧ ¬ Grammatical "Xx2" :=
  ⟨claim_C4.2.1 "Xx2" (some 1) (some "sample") (.unknownSymbol "Xx") (by decide),
   (claim_C4.1 "Xx2").mp ⟨.unknownSymbol "Xx", by decide⟩⟩

/-- Claim C5 counterexample: `parse("(3HO0.5)2")` flattens to
`{H: 6, O: 3}` — the leading 3 scales the whole group, exactly as in the
hydrate notation `3H2O` = `{H: 6, O: 3}` — so the oxygen count is 3, not
the claimed 1. -/
theorem claim_C5_counterexample :
    (formula_grammar "(3HO0.5)2").map flattenFrags
        = .ok [(⟨1, none⟩, ⟨6, 0⟩), (⟨8, none⟩, ⟨3, 0⟩)]
    ∧ (lookupMap [((⟨1, none⟩ : AtomRef), (⟨6, 0⟩ : Decimal)),
        (⟨8, none⟩, ⟨3, 0⟩)] ⟨8, none⟩).val ≠ 1 := by
  constructor
  · decide
  · have h : lookupMap [((⟨1, none⟩ : AtomRef), (⟨6, 0⟩ : Decimal)),
        (⟨8, none⟩, ⟨3, 0⟩)] ⟨8, none⟩ = (⟨3, 0⟩ : Decimal) := by decide
    rw [h]
    norm_num [Decimal.val]

/-- Claim C5 (amended): nested parenthesized groups with trailing counts
parse and flatten correctly — `parse("(CaCO3(H2O)6)1")` flattens
identically to `parse("CaCO3+6H2O")` — and decimal counts are accepted,
with `parse("(3HO0.5)2")` flattening to `{H: 6, O: 3}`. -/
theorem claim_C5_amended :
    (formula_grammar "(CaCO3(H2O)6)1").map flattenFrags
        = (formula_grammar "CaCO3+6H2O").map flattenFrags
    ∧ (formula_grammar "(3HO0.5)2").map flattenFrags
        = .ok [(⟨1, none⟩, ⟨6, 0⟩), (⟨8, none⟩, ⟨3, 0⟩)] := by
  exact ⟨by decide, by decide⟩

/-- Claim C6: `parse("CaCO[18]3")` keys its three oxygen atoms by the
oxygen-18 isotope reference, which is distinct from the bare-oxygen
reference, and the mass computation uses the isotope-18 mass
(17.9991604), giving 106.0861812 — different from the 100.0869 obtained
with the natural-oxygen mass. -/
theorem claim_C6 :
    (formula_grammar "CaCO[18]3").map flattenFrags
        = .ok [(⟨6, none⟩, ⟨1, 0⟩), (⟨8, some 18⟩, ⟨3, 0⟩), (⟨20, none⟩, ⟨1, 0⟩)]
    ∧ (⟨8, some 18⟩ : AtomRef) ≠ ⟨8, none⟩
    ∧ (formula_grammar "CaCO[18]3").map (fun fs => totalMassMap (flattenFrags fs))
        = .ok (some ⟨1060861812, 7⟩)
    ∧ atomMass ⟨8, some 18⟩ = some ⟨179991604, 7⟩
    ∧ atomMass ⟨8, none⟩ = some ⟨159994, 4⟩
    ∧ totalMassMap [(⟨6, none⟩, ⟨1, 0⟩), (⟨8, none⟩, ⟨3, 0⟩), (⟨20, none⟩, ⟨1, 0⟩)]
        = some ⟨1000869, 4⟩
    ∧ (⟨1060861812, 7⟩ : Decimal) ≠ ⟨1000869, 4⟩ := by
  refine ⟨by decide, by decide, by decide, by decide, by decide, by decide, by decide⟩

/-- Claim C7: `add(A, B)` concatenates the fragment sequences (operands
are untouched — the model is purely functional, matching the spec's
"without mutating operands"), and density and name come from whichever
operand defines them, the left operand taking precedence, with no error on
conflict. -/
theorem claim_C7 :
    (∀ A B : Formula, (A.add B).struct = A.struct.append B.struct)
    ∧ (∀ (A B : Formula) (d : ℚ), A.density = some d → (A.add B).density = some d)
    ∧ (∀ A B : Formula, A.density = none → (A.add B).density = B.density)
    ∧ (∀ (A B : Formula) (n : String), A.name = some n → (A.add B).name = some n)
    ∧ (∀ A B : Formula, A.name = none → (A.add B).name = B.name) := by
  refine ⟨fun A B => rfl, ?_, ?_, ?_, ?_⟩
  · intro A B d h
    simp [Formula.add, h]
  · intro A B h
    simp [Formula.add, h]
  · intro A B n h
    simp [Formula.add, h]
  · intro A B h
    simp [Formula.add, h]

def Facid : Formula := ⟨.fcons ⟨1, 0⟩ (.atom ⟨1, none⟩) .fnil, some 2, some "acid"⟩
def Fbase : Formula := ⟨.fcons ⟨1, 0⟩ (.atom ⟨8, none⟩) .fnil, some 3, some "base"⟩
def Fanon : Formula := ⟨.fnil, none, none⟩

/-- Witness for C7 at concrete Formulas: with both densities and names
defined, the left operand wins; with the left absent, the right is
taken. -/
theorem claim_C7_witness :
    (Facid.add Fbase).struct = Facid.struct.append Fbase.struct
    ∧ (Facid.add Fbase).density = some 2
    ∧ (Fanon.add Fbase).density = Fbase.density
    ∧ (Facid.add Fbase).name = some "acid"
    ∧ (Fanon.add Fbase).name = Fbase.name :=
  ⟨claim_C7.1 Facid Fbase,
   claim_C7.2.1 Facid Fbase 2 rfl,
   claim_C7.2.2.1 Fanon Fbase rfl,
   claim_C7.2.2.2.1 Facid Fbase "acid" rfl,
   claim_C7.2.2.2.2 Fanon Fbase rfl⟩

/-- Claim C8: the mass of the empty Formula is 0; when any atom of the
flattened composition lacks a mass datum the mass is `none` (no partial
sum — the evaluation fails as a unit); otherwise it is the sum over the
flattened composition of count times the atom's mass. -/
theorem claim_C8 :
    Formula.empty.mass = some Decimal.zero
    ∧ (∀ F : Formula, (∃ p ∈ flattenFormula F, atomMass p.1 = none) →
        F.mass = none)
    ∧ (∀ F : Formula, (∀ p ∈ flattenFormula F, (atomMass p.1).isSome) →
        F.mass = some (weightedMassSum (flattenFormula F))) :=
  ⟨rfl, fun _ h => totalMassMap_none _ h, fun _ h => totalMassMap_some _ h⟩

def Ftc : Formula := ⟨.fcons ⟨2, 0⟩ (.atom ⟨43, none⟩) .fnil, none, none⟩
def Fwater : Formula :=
  ⟨.fcons ⟨2, 0⟩ (.atom ⟨1, none⟩) (.fcons ⟨1, 0⟩ (.atom ⟨8, none⟩) .fnil), none, none⟩

/-- Witness for C8: technetium has no standard atomic weight, so the mass
of a Tc formula is undefined; every atom of water has a mass, so its mass
is the weighted sum. -/
theorem claim_C8_witness :
    (∃ p ∈ flattenFormula Ftc, atomMass p.1 = none)
    ∧ Ftc.mass = none
    ∧ (∀ p ∈ flattenFormula Fwater, (atomMass p.1).isSome)
    ∧ Fwater.mass = some (weightedMassSum (flattenFormula Fwater)) :=
  ⟨by decide, claim_C8.2.1 Ftc (by decide), by decide,
   claim_C8.2.2 Fwater (by decide)⟩

/-- Claim C9: `neutron_sld` and `xray_sld` fail with the missing-density
error exactly when neither an explicit density argument nor a density
declared on the Formula is available; an explicit density takes precedence
(the result depends only on it), and otherwise the Formula's declared
density is used. -/
theorem claim_C9 :
    (∀ (F : Formula) (dens : Option ℚ) (w : ℚ),
      neutron_sld F dens w = .error .missingDensity ↔ dens = none ∧ F.density = none)
    ∧ (∀ (F : Formula) (dens wl en : Option ℚ),
      xray_sld F dens wl en = .error .missingDensity ↔ dens = none ∧ F.density = none)
    ∧ (∀ (F : Formula) (d w : ℚ),
      neutron_sld F (some d) w = .ok (neutronCalc F d w))
    ∧ (∀ (F : Formula) (d : ℚ) (wl en : Option ℚ),
      xray_sld F (some d) wl en = .ok (xrayCalc F d wl en))
    ∧ (∀ (F : Formula) (d w : ℚ), F.density = some d →
      neutron_sld F none w = .ok (neutronCalc F d w))
    ∧ (∀ (F : Formula) (d : ℚ) (wl en : Option ℚ), F.density = some d →
      xray_sld F none wl en = .ok (xrayCalc F d wl en)) := by
  refine ⟨?_, ?_, fun F d w => rfl, fun F d wl en => rfl, ?_, ?_⟩
  · intro F dens w
    cases dens with
    | some d => simp [neutron_sld, resolveDensity, okMap]
    | none =>
      cases hd : F.density with
      | some d => simp [neutron_sld, resolveDensity, hd, okMap]
      | none => simp [neutron_sld, resolveDensity, hd, errMap]
  · intro F dens wl en
    cases dens with
    | some d => simp [xray_sld, resolveDensity, okMap]
    | none =>
      cases hd : F.density with
      | some d => simp [xray_sld, resolveDensity, hd, okMap]
      | none => simp [xray_sld, resolveDensity, hd, errMap]
  · intro F d w h
    simp [neutron_sld, resolveDensity, h, okMap]
  · intro F d wl en h
    simp [xray_sld, resolveDensity, h, okMap]

def Fdens : Formula := ⟨.fcons ⟨1, 0⟩ (.atom ⟨8, none⟩) .fnil, some 2, none⟩

/-- Witness for C9: a Formula with a declared density of 2 uses it when no
explicit density is passed. -/
theorem claim_C9_witness :
    Fdens.density = some 2
    ∧ neutron_sld Fdens none 1 = .ok (neutronCalc Fdens 2 1)
    ∧ xray_sld Fdens none none none = .ok (xrayCalc Fdens 2 none none) :=
  ⟨rfl, claim_C9.2.2.2.2.1 Fdens 2 1 rfl, claim_C9.2.2.2.2.2 Fdens 2 none none rfl⟩

/-- Claim C10: `xray`, `K_alpha` and `K_beta1` share one delayed-load
registration (loader `xsf`): the first access to any of the three runs the
loader once and installs all three; a further access to another of them
runs nothing.  `K_alpha_units` and `K_beta1_units` are set to `angstrom`
eagerly at import, before any lazy load has occurred (no loader has run at
the end of import). -/
theorem claim_C10 :
    importedState.registrations.find? (fun r => "xray" ∈ r.1)
        = some (["xray", "K_alpha", "K_beta1"], "xsf")
    ∧ importedState.registrations.find? (fun r => "K_alpha" ∈ r.1)
        = some (["xray", "K_alpha", "K_beta1"], "xsf")
    ∧ importedState.registrations.find? (fun r => "K_beta1" ∈ r.1)
        = some (["xray", "K_alpha", "K_beta1"], "xsf")
    ∧ (access importedState "xray").2 = some "xsf"
    ∧ (access importedState "K_alpha").2 = some "xsf"
    ∧ (access importedState "K_beta1").2 = some "xsf"
    ∧ "xray" ∈ (access importedState "K_alpha").1.installed
    ∧ "K_alpha" ∈ (access importedState "K_alpha").1.installed
    ∧ "K_beta1" ∈ (access importedState "K_alpha").1.installed
    ∧ (access (access importedState "K_alpha").1 "xray").2 = none
    ∧ (access (access importedState "xray").1 "K_beta1").2 = none
    ∧ importedState.classAttrs
        = [("K_alpha_units", "angstrom"), ("K_beta1_units", "angstrom")]
    ∧ importedState.loaded = [] := by
  refine ⟨by decide, by decide, by decide, by decide, by decide, by decide,
    by decide, by decide, by decide, by decide, by decide, by decide, by decide⟩
